import Mathlib

/-
Verification of the merge/chain-reaction engine of the prime-factorization
puzzle game.

The embedding follows the TypeScript sources:
  * `src/gameLogic.ts`   — arithmetic predicates and the factorization search;
  * the chain-reaction module — `processSingleIteration` / `processChainReactions`;
  * `src/utils/tileHelpers.ts` — `createCleanTile`.

Modelling conventions:
  * JavaScript numbers that hold tile values, ids and counters are modelled
    as `Nat`; the two arguments of `isDivisor` are modelled as `Int` because
    the function is stated for arbitrary numbers.
  * `x % 0` is `NaN` in JavaScript and `NaN === 0` is `false`; the model
    therefore returns `false` when the divisor is `0`.
  * `Math.sqrt` / `Math.cbrt` are modelled as the exact real roots: the code
    compares `Math.sqrt n` with its floor, and rounds `Math.cbrt n` to the
    nearest integer before re-cubing, so only the floor of the real square
    root and the nearest integer to the real cube root enter the model.
  * presentation-only tile fields (animation flags, highlight flags) are not
    part of the model; the engine never reads them.
-/

namespace PFG

/-- From `gameLogic.ts`: `isDivisor(a, b)` is `b % a === 0`.  There is no
guard in the source; for `a = 0` the JavaScript expression `b % 0` is `NaN`,
which compares unequal to `0`, so the call returns `false`.  For `a ≠ 0` the
JavaScript remainder is `0` exactly when `a` divides `b`. -/
def isDivisor (a b : ℤ) : Bool :=
  if a = 0 then false else b % a == 0

/-- From `gameLogic.ts`: `isPerfectSquare(n)`; `n <= 0` returns `false`,
otherwise the code tests `Math.sqrt(n) === Math.floor(Math.sqrt(n))`, i.e.
whether the real square root of `n` is an integer.  The floor of the real
square root of `n` is `Nat.sqrt n`, and the root is an integer exactly when
its floor squares back to `n`. -/
def isPerfectSquare (n : ℕ) : Bool :=
  if n = 0 then false else Nat.sqrt n * Nat.sqrt n == n

/-- The integer nearest to the real cube root of `n` (used to model
`Math.round(Math.cbrt(n))`).  A natural number `k` satisfies
`k + 1/2 ≤ n^(1/3)` iff `(2k+1)³ ≤ 8n`; counting those `k` below `n + 2`
yields exactly `round(n^(1/3))`.  Ties are impossible: `(2k+1)³` is odd and
`8n` is even. -/
def jsRoundCbrt (n : ℕ) : ℕ :=
  (List.range (n + 2)).countP (fun k => decide ((2 * k + 1) ^ 3 ≤ 8 * n))

/-- From `gameLogic.ts`: `isPerfectCube(n)`; `n <= 0` returns `false`,
otherwise the code computes `rounded = Math.round(Math.cbrt(n))` and checks
`Math.abs(rounded ** 3 - n) < 0.0001`.  Both `rounded ** 3` and `n` are
integers, so the epsilon test succeeds exactly when `rounded ^ 3 = n`. -/
def isPerfectCube (n : ℕ) : Bool :=
  if n = 0 then false else jsRoundCbrt n ^ 3 == n

/-- Result classification of `checkPerfectPowerElimination`. -/
inductive PowerKind where
  | square
  | cube
  deriving Repr, DecidableEq

/-- From `gameLogic.ts`: `checkPerfectPowerElimination(value1, value2)`:
`null` unless the values are equal; then `square` if the common value is a
perfect square, else `cube` if it is a perfect cube, else `null`. -/
def checkPerfectPowerElimination (value1 value2 : ℕ) : Option PowerKind :=
  if value1 ≠ value2 then none
  else if isPerfectSquare value1 then some .square
  else if isPerfectCube value1 then some .cube
  else none

/-- Modelled from the spec: `checkEqualValueElimination(v1, v2)` is imported
from `gameLogic.ts` by the chain-reaction module but its definition is not
among the provided sources.  The spec states: true iff `v1 == v2` (any equal
pair eliminates, independent of being a perfect power). -/
def checkEqualValueElimination (v1 v2 : ℕ) : Bool :=
  v1 == v2

section ArithmeticLemmas

theorem isDivisor_iff (a b : ℤ) : isDivisor a b = true ↔ a ≠ 0 ∧ a ∣ b := by
  unfold isDivisor
  by_cases h : a = 0
  · simp [h]
  · simp only [h, if_false, beq_iff_eq, ne_eq, not_false_iff, true_and]
    exact ⟨fun hh => Int.dvd_of_emod_eq_zero hh, fun hh => Int.emod_eq_zero_of_dvd hh⟩

theorem isDivisor_natCast_iff (a b : ℕ) :
    isDivisor (a : ℤ) (b : ℤ) = true ↔ a ≠ 0 ∧ a ∣ b := by
  rw [isDivisor_iff]
  constructor
  · rintro ⟨h1, h2⟩
    exact ⟨fun hh => h1 (by exact_mod_cast congrArg (Nat.cast : ℕ → ℤ) hh),
      Int.ofNat_dvd.mp h2⟩
  · rintro ⟨h1, h2⟩
    exact ⟨by exact_mod_cast h1, Int.ofNat_dvd.mpr h2⟩

theorem isPerfectSquare_iff (n : ℕ) :
    isPerfectSquare n = true ↔ 0 < n ∧ ∃ k, k * k = n := by
  unfold isPerfectSquare
  by_cases h : n = 0
  · simp [h]
  · simp only [h, if_false, beq_iff_eq]
    constructor
    · intro hs
      exact ⟨Nat.pos_of_ne_zero h, ⟨Nat.sqrt n, hs⟩⟩
    · rintro ⟨-, k, hk⟩
      rw [← hk, Nat.sqrt_eq]

theorem countP_range_lt (m k : ℕ) :
    (List.range m).countP (fun i => decide (i < k)) = min k m := by
  induction m with
  | zero => simp
  | succ m ih =>
    rw [List.range_succ, List.countP_append, ih]
    by_cases h : m < k
    · simp [List.countP_cons, h]
      omega
    · simp [List.countP_cons, h]
      omega

theorem jsRoundCbrt_cube (k : ℕ) : jsRoundCbrt (k ^ 3) = k := by
  unfold jsRoundCbrt
  have hEq : ∀ i : ℕ, ((2 * i + 1) ^ 3 ≤ 8 * k ^ 3 ↔ i < k) := by
    intro i
    have h8 : 8 * k ^ 3 = (2 * k) ^ 3 := by ring
    rw [h8]
    constructor
    · intro h
      by_contra hc
      push_neg at hc
      have : 2 * k < 2 * i + 1 := by omega
      have := Nat.pow_lt_pow_left this (n := 3) (by norm_num)
      omega
    · intro h
      have : 2 * i + 1 ≤ 2 * k := by omega
      exact Nat.pow_le_pow_left this 3
  have hc : (List.range (k ^ 3 + 2)).countP (fun i => decide ((2 * i + 1) ^ 3 ≤ 8 * k ^ 3))
      = (List.range (k ^ 3 + 2)).countP (fun i => decide (i < k)) := by
    apply List.countP_congr
    intro i _
    simp [hEq i]
  rw [hc, countP_range_lt]
  have : k ≤ k ^ 3 := Nat.le_self_pow (by norm_num) k
  omega

theorem isPerfectCube_iff (n : ℕ) :
    isPerfectCube n = true ↔ 0 < n ∧ ∃ k, k ^ 3 = n := by
  unfold isPerfectCube
  by_cases h : n = 0
  · simp [h]
  · simp only [h, if_false, beq_iff_eq]
    constructor
    · intro hs
      exact ⟨Nat.pos_of_ne_zero h, ⟨jsRoundCbrt n, hs⟩⟩
    · rintro ⟨-, k, hk⟩
      rw [← hk, jsRoundCbrt_cube k]

end ArithmeticLemmas

/-- From `gameLogic.ts`: `getDivisors(n)` collects every `i` with
`2 ≤ i ≤ n` and `n % i === 0`, in increasing order. -/
def getDivisors (n : ℕ) : List ℕ :=
  (List.range (n + 1)).filter (fun i => decide (2 ≤ i ∧ n % i = 0))

/-- From `gameLogic.ts`: `getFactorizations(n, count)` lists the ways to
write `n` as an ordered product of exactly `count` factors, each `> 1`, in
non-decreasing order.  The loop `for (const d of divisors)` breaks as soon
as `d > n / d` (all listed `d` divide `n`, so the JavaScript quotient is
exact and agrees with `Nat` division); `count === 2` pushes `[d, n / d]`,
larger counts recurse on `n / d` and keep a sub-factorization only when its
head is `≥ d`.  `subFactor[0]` of an empty list is `undefined` in
JavaScript and the comparison is then false; `List.headD 0` gives the same
outcome since every `d` is `≥ 2`.  The source never calls this with
`count = 0`; the model returns `[]` there. -/
def getFactorizations (n : ℕ) : ℕ → List (List ℕ)
  | 0 => []
  | 1 => [[n]]
  | count + 2 =>
    ((getDivisors n).takeWhile (fun d => decide (d ≤ n / d))).flatMap (fun d =>
      if count = 0 then [[d, n / d]]
      else (getFactorizations (n / d) (count + 1)).filterMap (fun sub =>
        if d ≤ sub.headD 0 then some (d :: sub) else none))

/-- A candidate tile as consumed by the factorization search: the source
receives `{value, row, col, id}` (plus an unused `index`); only `value` and
`id` are read. -/
structure FactorCand where
  value : ℕ
  id : ℕ
  deriving Repr, DecidableEq

/-- An entry of the assignment returned by `findFactorAssignment`:
`{id, value, divisor}`. -/
structure FactorAssign where
  id : ℕ
  value : ℕ
  divisor : ℕ
  deriving Repr, DecidableEq

/-- From `gameLogic.ts`: the backtracking core of `findFactorAssignment`.
`tryAssign(factorIndex)` walks the factors; for the current factor it scans
the candidate tiles in order, skipping indices already used and tiles the
factor does not divide; on a dividing tile it records the assignment and
recurses, undoing the choice if the recursion fails.  "First success wins,
failures fall through to the next candidate" is exactly `List.findSome?`
over the indexed candidate list. -/
def tryAssign (cands : List (ℕ × FactorCand)) : List ℕ → List ℕ → Option (List FactorAssign)
  | [], _ => some []
  | factor :: rest, used =>
    cands.findSome? (fun ic =>
      if ic.1 ∈ used then none
      else if ic.2.value % factor = 0 then
        match tryAssign cands rest (ic.1 :: used) with
        | some tailAssign => some (⟨ic.2.id, ic.2.value, factor⟩ :: tailAssign)
        | none => none
      else none)

/-- From `gameLogic.ts`: `findFactorAssignment(factors, adjacentTiles)`
starts the backtracking with no index used. -/
def findFactorAssignment (factors : List ℕ) (adjacentTiles : List FactorCand) :
    Option (List FactorAssign) :=
  tryAssign adjacentTiles.enum factors []

/-- From `gameLogic.ts`: `checkMultiTileFactorization(centerTile, adjacentTiles)`.
`null` with fewer than 2 candidates; otherwise for `numFactors` from 2 to the
candidate count, the first factorization of the center value admitting an
assignment wins.  The source wraps the assignment as
`{canFactor: true, factorTiles}`; since `canFactor` is always `true` the
model returns the assignment itself. -/
def checkMultiTileFactorization (centerValue : ℕ) (adjacentTiles : List FactorCand) :
    Option (List FactorAssign) :=
  if adjacentTiles.length < 2 then none
  else (List.range' 2 (adjacentTiles.length - 1)).findSome? (fun numFactors =>
    (getFactorizations centerValue numFactors).findSome? (fun factors =>
      findFactorAssignment factors adjacentTiles))

example : getFactorizations 12 2 = [[2, 6], [3, 4]] := by decide
example : getFactorizations 8 3 = [[2, 2, 2]] := by decide
example : checkMultiTileFactorization 12 [⟨3, 2⟩, ⟨4, 3⟩]
    = some [⟨2, 3, 3⟩, ⟨3, 4, 4⟩] := by decide
example : checkMultiTileFactorization 5 [⟨10, 1⟩, ⟨15, 2⟩] = none := by decide
example : checkMultiTileFactorization 6 [⟨2, 1⟩, ⟨3, 2⟩, ⟨12, 3⟩, ⟨18, 4⟩]
    = some [⟨1, 2, 2⟩, ⟨2, 3, 3⟩] := by decide

section FactorizationLemmas

theorem mem_getDivisors {n d : ℕ} (h : d ∈ getDivisors n) : 2 ≤ d ∧ d ∣ n := by
  unfold getDivisors at h
  rw [List.mem_filter] at h
  obtain ⟨-, hp⟩ := h
  simp only [decide_eq_true_eq] at hp
  exact ⟨hp.1, Nat.dvd_of_mod_eq_zero hp.2⟩

theorem getFactorizations_sound :
    ∀ (c n : ℕ) (fs : List ℕ), fs ∈ getFactorizations n (c + 2) →
      (∀ d ∈ fs, 2 ≤ d) ∧ fs.prod = n ∧ fs.length = c + 2 := by
  intro c
  induction c with
  | zero =>
    intro n fs h
    unfold getFactorizations at h
    rw [List.mem_flatMap] at h
    obtain ⟨d, hd, hfs⟩ := h
    have hpred := List.mem_takeWhile_imp hd
    have hdvd := mem_getDivisors (List.takeWhile_subset _ hd)
    simp only [decide_eq_true_eq] at hpred
    have hfs' : fs = [d, n / d] := by simpa using hfs
    subst hfs'
    refine ⟨?_, ?_, rfl⟩
    · intro x hx
      rcases List.mem_pair.mp hx with h | h <;> subst h
      · exact hdvd.1
      · omega
    · simp [Nat.mul_div_cancel' hdvd.2]
  | succ k ih =>
    intro n fs h
    unfold getFactorizations at h
    rw [List.mem_flatMap] at h
    obtain ⟨d, hd, hfs⟩ := h
    have hpred := List.mem_takeWhile_imp hd
    have hdvd := mem_getDivisors (List.takeWhile_subset _ hd)
    simp only [decide_eq_true_eq] at hpred
    rw [if_neg (by omega)] at hfs
    rw [List.mem_filterMap] at hfs
    obtain ⟨sub, hsub, hsome⟩ := hfs
    by_cases hh : d ≤ sub.headD 0
    · rw [if_pos hh] at hsome
      obtain rfl := Option.some.inj hsome
      obtain ⟨hall, hprod, hlen⟩ := ih (n / d) sub hsub
      refine ⟨?_, ?_, ?_⟩
      · intro x hx
        rcases List.mem_cons.mp hx with h | h
        · subst h; exact hdvd.1
        · exact hall x h
      · rw [List.prod_cons, hprod, Nat.mul_div_cancel' hdvd.2]
      · simp [hlen]
    · rw [if_neg hh] at hsome
      exact absurd hsome (by simp)

theorem tryAssign_sound (L : List (ℕ × FactorCand)) :
    ∀ (factors used : List ℕ) (asg : List FactorAssign),
      tryAssign L factors used = some asg →
      ∃ idxs : List ℕ, idxs.Nodup ∧ (∀ i ∈ idxs, i ∉ used) ∧
        List.Forall₂ (fun i (e : FactorAssign) =>
          ∃ c, (i, c) ∈ L ∧ e.id = c.id ∧ e.value = c.value) idxs asg ∧
        asg.map FactorAssign.divisor = factors ∧
        ∀ e ∈ asg, e.divisor ∣ e.value := by
  intro factors
  induction factors with
  | nil =>
    intro used asg h
    unfold tryAssign at h
    obtain rfl := Option.some.inj h
    exact ⟨[], List.nodup_nil, by simp, List.Forall₂.nil, rfl, by simp⟩
  | cons factor rest ih =>
    intro used asg h
    unfold tryAssign at h
    obtain ⟨ic, hmem, hic⟩ := List.exists_of_findSome?_eq_some h
    by_cases hused : ic.1 ∈ used
    · rw [if_pos hused] at hic; exact absurd hic (by simp)
    rw [if_neg hused] at hic
    by_cases hdvd : ic.2.value % factor = 0
    swap
    · rw [if_neg hdvd] at hic; exact absurd hic (by simp)
    rw [if_pos hdvd] at hic
    cases htail : tryAssign L rest (ic.1 :: used) with
    | none => rw [htail] at hic; exact absurd hic (by simp)
    | some tailAssign =>
      rw [htail] at hic
      obtain rfl := Option.some.inj hic
      obtain ⟨idxs, hnd, hnotused, hf2, hdiv, hfdvd⟩ := ih (ic.1 :: used) tailAssign htail
      refine ⟨ic.1 :: idxs, ?_, ?_, ?_, ?_, ?_⟩
      · rw [List.nodup_cons]
        exact ⟨fun hin => (hnotused _ hin) (List.mem_cons_self _ _), hnd⟩
      · intro i hi
        rcases List.mem_cons.mp hi with h | h
        · subst h; exact hused
        · exact fun hc => (hnotused i h) (List.mem_cons_of_mem _ hc)
      · exact List.Forall₂.cons ⟨ic.2, by simpa using hmem, rfl, rfl⟩ hf2
      · simp [hdiv]
      · intro e he
        rcases List.mem_cons.mp he with h | h
        · subst h; exact Nat.dvd_of_mod_eq_zero hdvd
        · exact hfdvd e h

theorem nodup_map_id_of_assignment {cands : List FactorCand}
    {idxs : List ℕ} {asg : List FactorAssign}
    (hnd : idxs.Nodup)
    (hf2 : List.Forall₂ (fun i (e : FactorAssign) =>
      ∃ c, (i, c) ∈ cands.enum ∧ e.id = c.id ∧ e.value = c.value) idxs asg)
    (hids : (cands.map FactorCand.id).Nodup) :
    (asg.map FactorAssign.id).Nodup := by
  induction hf2 with
  | nil => exact List.nodup_nil
  | @cons i e idxs' asg' hrel hf2' ih =>
    rw [List.nodup_cons] at hnd
    rw [List.map_cons, List.nodup_cons]
    refine ⟨?_, ih hnd.2⟩
    intro hmem
    rw [List.mem_map] at hmem
    obtain ⟨e', he', heq⟩ := hmem
    -- e' corresponds to some index j ∈ idxs', with j ≠ i; distinct positions
    -- in cands have distinct ids, contradiction with e.id = e'.id.
    have : ∃ j ∈ idxs', ∃ c', (j, c') ∈ cands.enum ∧ e'.id = c'.id := by
      clear ih hnd heq
      induction hf2' with
      | nil => simp at he'
      | @cons j e2 js es hrel2 hf22 ih2 =>
        rcases List.mem_cons.mp he' with h | h
        · subst h
          obtain ⟨c', hc', hid, -⟩ := hrel2
          exact ⟨j, List.mem_cons_self _ _, c', hc', hid⟩
        · obtain ⟨j', hj', hrest⟩ := ih2 h
          exact ⟨j', List.mem_cons_of_mem _ hj', hrest⟩
    obtain ⟨j, hj, c', hc', hid'⟩ := this
    obtain ⟨c, hc, hid, -⟩ := hrel
    rw [List.mem_enum_iff_getElem?] at hc hc'
    have hij : i ≠ j := fun hcontra => hnd.1 (hcontra ▸ hj)
    have hci : (cands.map FactorCand.id)[i]? = some c.id := by
      rw [List.getElem?_map, hc, Option.map_some']
    have hcj : (cands.map FactorCand.id)[j]? = some c'.id := by
      rw [List.getElem?_map, hc', Option.map_some']
    have hcc : c.id = c'.id := by rw [← hid, ← hid', heq]
    have hilen : i < (cands.map FactorCand.id).length := by
      by_contra hlen
      rw [List.getElem?_eq_none (by omega)] at hci
      exact absurd hci (by simp)
    exact hij (List.getElem?_inj hilen hids (by rw [hci, hcj, hcc]))

theorem checkMultiTileFactorization_sound
    {center : ℕ} {cands : List FactorCand} {asg : List FactorAssign}
    (h : checkMultiTileFactorization center cands = some asg) :
    2 ≤ cands.length ∧ 2 ≤ asg.length ∧ asg.length ≤ cands.length ∧
    (asg.map FactorAssign.divisor).prod = center ∧
    (∀ e ∈ asg, 2 ≤ e.divisor ∧ e.divisor ∣ e.value ∧
      ∃ c ∈ cands, e.id = c.id ∧ e.value = c.value) ∧
    ((cands.map FactorCand.id).Nodup → (asg.map FactorAssign.id).Nodup) := by
  unfold checkMultiTileFactorization at h
  by_cases hlen : cands.length < 2
  · rw [if_pos hlen] at h; exact absurd h (by simp)
  rw [if_neg hlen] at h
  push_neg at hlen
  obtain ⟨nf, hnf, h2⟩ := List.exists_of_findSome?_eq_some h
  obtain ⟨factors, hfmem, h3⟩ := List.exists_of_findSome?_eq_some h2
  rw [List.mem_range'_1] at hnf
  obtain ⟨hnf2, hnfle⟩ := hnf
  obtain ⟨c, rfl⟩ : ∃ c, nf = c + 2 := ⟨nf - 2, by omega⟩
  obtain ⟨hall, hprod, hflen⟩ := getFactorizations_sound c center factors hfmem
  unfold findFactorAssignment at h3
  obtain ⟨idxs, hnd, -, hf2, hmapdiv, hdvd⟩ := tryAssign_sound cands.enum factors [] asg h3
  have hasglen : asg.length = c + 2 := by
    rw [← hflen, ← hmapdiv, List.length_map]
  refine ⟨hlen, by omega, by omega, ?_, ?_, ?_⟩
  · rw [hmapdiv, hprod]
  · intro e he
    refine ⟨?_, hdvd e he, ?_⟩
    · exact hall e.divisor (hmapdiv ▸ List.mem_map_of_mem FactorAssign.divisor he)
    · -- every entry corresponds to a member of the candidate list
      clear hmapdiv hdvd hasglen h3 h2 h hnd
      induction hf2 with
      | nil => simp at he
      | @cons i e2 js es hrel hf22 ih =>
        rcases List.mem_cons.mp he with hh | hh
        · subst hh
          obtain ⟨cd, hcd, hid, hval⟩ := hrel
          exact ⟨cd, List.snd_mem_of_mem_enum hcd, hid, hval⟩
        · exact ih hh
  · intro hids
    exact nodup_map_id_of_assignment hnd hf2 hids

end FactorizationLemmas

/-- A board tile (`types.ts`).  The engine reads and writes `id`, `value`,
`row`, `col` and `scoreValue`; the remaining fields of the source interface
are presentation flags that no engine rule consumes, and are omitted. -/
structure Tile where
  id : ℕ
  value : ℕ
  row : ℤ
  col : ℤ
  scoreValue : Option ℕ := none
  deriving Repr, DecidableEq

/-- From `tileHelpers.ts`: `createCleanTile(source, overrides)` keeps only
`id`, `value`, `row`, `col` from the source (each overridable) and copies an
optional field only when the override provides it.  The engine always
overrides `id` and `value`, never `row`/`col`, and sometimes `scoreValue`;
the source tile's own `scoreValue` is *not* copied when no override is
given. -/
def createCleanTile (source : Tile) (id value : ℕ) (scoreValue : Option ℕ) : Tile :=
  { id := id, value := value, row := source.row, col := source.col, scoreValue := scoreValue }

/-- The local `directions` array of `getAdjacentTiles`: up, down, left,
right. -/
def directions : List (ℤ × ℤ) :=
  [(-1, 0), (1, 0), (0, -1), (0, 1)]

/-- From the chain-reaction module: `getAdjacentTiles(tile, allTiles)` scans
the four orthogonal neighbour positions in the order up, down, left, right
and keeps, per position, the first tile of `allTiles` found there. -/
def getAdjacentTiles (tile : Tile) (allTiles : List Tile) : List Tile :=
  directions.filterMap (fun d =>
    allTiles.find? (fun other =>
      other.row == tile.row + d.1 && other.col == tile.col + d.2))

/-- Mutable locals of the loop body of `processSingleIteration`:
`processedIds`, `result`, `changed`, `scoreGained`, `currentTileId`. -/
structure IterState where
  processed : List ℕ
  result : List Tile
  changed : Bool
  score : ℕ
  currentId : ℕ
  deriving Repr

/-- Result record of `processSingleIteration`. -/
structure IterOut where
  tiles : List Tile
  changed : Bool
  score : ℕ
  nextTileId : ℕ
  deriving Repr

/-- Result record of `processChainReactions`. -/
structure ChainOut where
  tiles : List Tile
  scoreGained : ℕ
  chainCount : ℕ
  chainSteps : List (List Tile)
  nextTileId : ℕ
  deriving Repr

/-- The inner loop of the factorization branch of `processSingleIteration`:
for each assignment entry, look the tile up by id in the *input* tile list
(`continue` when absent), mark it processed, add its recorded value times
the multiplier to the score, and emit its replacement: value `0` (with
`scoreValue`) when the quotient is 1, else the quotient (no `scoreValue`). -/
def applyFactorTile (tiles : List Tile) (mult : ℕ) (st : IterState) (ft : FactorAssign) :
    IterState :=
  match tiles.find? (fun t => t.id == ft.id) with
  | none => st
  | some adjacentTile =>
    let newValue := ft.value / ft.divisor
    { st with
      processed := adjacentTile.id :: st.processed
      score := st.score + ft.value * mult
      result := st.result ++
        [if newValue = 1 then createCleanTile adjacentTile st.currentId 0 (some adjacentTile.value)
         else createCleanTile adjacentTile st.currentId newValue none]
      currentId := st.currentId + 1 }

/-- The local `adjacentTiles` of the loop body: adjacent tiles that are not
yet processed and have a positive value. -/
def activeAdjacent (tiles : List Tile) (processed : List ℕ) (tile : Tile) : List Tile :=
  (getAdjacentTiles tile tiles).filter
    (fun t => decide (t.id ∉ processed) && decide (0 < t.value))

/-- The local `factorTiles`: the active adjacent tiles whose value divides
the visited tile's value. -/
def factorCandidates (adjacentTiles : List Tile) (tile : Tile) : List Tile :=
  adjacentTiles.filter (fun adj => isDivisor (adj.value : ℤ) (tile.value : ℤ))

/-- The local `product` of the factorization branch:
`factorResult.factorTiles.reduce((acc, ft) => acc * ft.divisor, 1)`. -/
def factorProduct (assignment : List FactorAssign) : ℕ :=
  assignment.foldl (fun acc ft => acc * ft.divisor) 1

/-- The replacement emitted for the center tile: value 0 (plus `scoreValue`)
when the new value is 1, else the new value. -/
def centerReplacement (tile : Tile) (i v : ℕ) : Tile :=
  if v = 1 then createCleanTile tile i 0 (some tile.value)
  else createCleanTile tile i v none

/-- STEP 1 success path of the loop body: mark the center processed, score
it, emit its replacement (`centerNewValue === 1` means it disappears), then
run the per-assignment inner loop. -/
def applyFactorization (tiles : List Tile) (mult : ℕ) (st : IterState) (tile : Tile)
    (assignment : List FactorAssign) : IterState :=
  assignment.foldl (applyFactorTile tiles mult)
    { st with
      changed := true
      processed := tile.id :: st.processed
      score := st.score + tile.value * mult
      result := st.result ++
        [centerReplacement tile st.currentId (tile.value / factorProduct assignment)]
      currentId := st.currentId + 1 }

/-- STEP 2 success path: both tiles are marked processed and removed
(value 0), the score grows by the sum of the two values times the
multiplier.  (The source also computes `checkPerfectPowerElimination` here,
but only to attach presentation flags.) -/
def applyEqualElimination (mult : ℕ) (st : IterState) (tile adjacentTile : Tile) :
    IterState :=
  { st with
    changed := true
    processed := adjacentTile.id :: tile.id :: st.processed
    score := st.score + (tile.value + adjacentTile.value) * mult
    result := st.result ++
      [createCleanTile tile st.currentId 0 (some tile.value),
       createCleanTile adjacentTile (st.currentId + 1) 0 (some adjacentTile.value)]
    currentId := st.currentId + 2 }

/-- STEP 3 success path: the visited (smaller) tile is removed, the larger
adjacent tile is divided by it (disappearing when the quotient is 1); both
replacements carry `scoreValue`. -/
def applyRegularMerge (mult : ℕ) (st : IterState) (tile adjacentTile : Tile) : IterState :=
  let newValue := adjacentTile.value / tile.value
  { st with
    changed := true
    processed := adjacentTile.id :: tile.id :: st.processed
    score := st.score + adjacentTile.value * mult
    result := st.result ++
      [createCleanTile tile st.currentId 0 (some tile.value),
       if newValue = 1 then
         createCleanTile adjacentTile (st.currentId + 1) 0 (some adjacentTile.value)
       else
         createCleanTile adjacentTile (st.currentId + 1) newValue (some adjacentTile.value)]
    currentId := st.currentId + 2 }

/-- One turn of the loop of `processSingleIteration` for the visited `tile`:
value-0 tiles are pushed through unchanged; already-processed tiles are
skipped; otherwise STEP 1 (multi-tile factorization over the unprocessed
positive adjacent divisors, only attempted with at least two of them),
STEP 2 (first adjacent tile of equal value), STEP 3 (adjacent tiles sorted
by descending value — JavaScript `sort` is stable — first unprocessed one
whose value the visited tile properly divides), and finally the unchanged
tile is retained when nothing fired. -/
def processTile (tiles : List Tile) (mult : ℕ) (st : IterState) (tile : Tile) : IterState :=
  if tile.value = 0 then { st with result := st.result ++ [tile] }
  else if tile.id ∈ st.processed then st
  else
    let adjacentTiles := activeAdjacent tiles st.processed tile
    match (if 2 ≤ (factorCandidates adjacentTiles tile).length then
        checkMultiTileFactorization tile.value
          ((factorCandidates adjacentTiles tile).map (fun t => ⟨t.value, t.id⟩))
      else none) with
    | some assignment => applyFactorization tiles mult st tile assignment
    | none =>
      match adjacentTiles.find? (fun a => checkEqualValueElimination tile.value a.value) with
      | some adjacentTile => applyEqualElimination mult st tile adjacentTile
      | none =>
        match (List.insertionSort (fun a b => b.value ≤ a.value) adjacentTiles).find?
            (fun a => decide (a.id ∉ st.processed) && decide (tile.value ≠ a.value) &&
              isDivisor (tile.value : ℤ) (a.value : ℤ)) with
        | some adjacentTile => applyRegularMerge mult st tile adjacentTile
        | none => { st with result := st.result ++ [tile] }

/-- From the chain-reaction module: `processSingleIteration(tiles,
nextTileId, chainMultiplier)` sorts the tiles by ascending value.
JavaScript `sort` is stable (required since ES2019), and the output of a
stable sort is uniquely determined by the comparator, so the stable
`List.insertionSort` models it exactly (and, unlike `List.mergeSort`, is
structurally recursive, hence kernel-computable).  It then runs the loop and
returns the rebuilt tile list, the change flag, the score gained and the
next free id. -/
def processSingleIteration (tiles : List Tile) (nextTileId : ℕ) (chainMultiplier : ℕ) :
    IterOut :=
  let sortedTiles := List.insertionSort (fun a b => a.value ≤ b.value) tiles
  let fin := sortedTiles.foldl (processTile tiles chainMultiplier)
    ⟨[], [], false, 0, nextTileId⟩
  ⟨fin.result, fin.changed, fin.score, fin.currentId⟩

/-- Termination measure for the chain loop: the sum of the cubes of the
tile values (value-0 sentinels contribute nothing). -/
def tileMeasure (l : List Tile) : ℕ :=
  (l.map (fun t => t.value ^ 3)).sum

/-- The part of `tileMeasure` carried by tiles whose id is not yet in the
processed set. -/
def unprocessedMeasure (l : List Tile) (P : List ℕ) : ℕ :=
  ((l.filter (fun t => decide (t.id ∉ P))).map (fun t => t.value ^ 3)).sum

section MeasureLemmas

theorem tileMeasure_append (l1 l2 : List Tile) :
    tileMeasure (l1 ++ l2) = tileMeasure l1 + tileMeasure l2 := by
  simp [tileMeasure]

theorem unprocessedMeasure_nil (P : List ℕ) : unprocessedMeasure [] P = 0 := rfl

theorem unprocessedMeasure_cons (t : Tile) (l : List Tile) (P : List ℕ) :
    unprocessedMeasure (t :: l) P =
      (if t.id ∉ P then t.value ^ 3 else 0) + unprocessedMeasure l P := by
  unfold unprocessedMeasure
  rw [List.filter_cons]
  by_cases h : t.id ∈ P
  · simp [h]
  · simp [h]

theorem unprocessedMeasure_mono (l : List Tile) (P Q : List ℕ)
    (h : ∀ x ∈ P, x ∈ Q) : unprocessedMeasure l Q ≤ unprocessedMeasure l P := by
  induction l with
  | nil => simp [unprocessedMeasure_nil]
  | cons t r ih =>
    rw [unprocessedMeasure_cons, unprocessedMeasure_cons]
    have : (if t.id ∉ Q then t.value ^ 3 else 0) ≤ (if t.id ∉ P then t.value ^ 3 else 0) := by
      by_cases hq : t.id ∈ Q
      · simp [hq]
      · have hp : t.id ∉ P := fun hmem => hq (h _ hmem)
        simp [hp, hq]
    omega

theorem unprocessedMeasure_remove (l : List Tile) (P Q : List ℕ) (t : Tile)
    (ht : t ∈ l) (htP : t.id ∉ P) (htQ : t.id ∈ Q) (hsub : ∀ x ∈ P, x ∈ Q) :
    unprocessedMeasure l Q + t.value ^ 3 ≤ unprocessedMeasure l P := by
  induction l with
  | nil => simp at ht
  | cons u r ih =>
    rw [unprocessedMeasure_cons, unprocessedMeasure_cons]
    rcases List.mem_cons.mp ht with h | h
    · subst h
      have h1 : (if t.id ∉ Q then t.value ^ 3 else 0) = 0 := by simp [htQ]
      have h2 : (if t.id ∉ P then t.value ^ 3 else 0) = t.value ^ 3 := by simp [htP]
      have := unprocessedMeasure_mono r P Q hsub
      omega
    · have hhead : (if u.id ∉ Q then u.value ^ 3 else 0) ≤
          (if u.id ∉ P then u.value ^ 3 else 0) := by
        by_cases hq : u.id ∈ Q
        · simp [hq]
        · have hp : u.id ∉ P := fun hmem => hq (hsub _ hmem)
          simp [hp, hq]
      have := ih h
      omega

theorem getAdjacentTiles_length_le (tile : Tile) (l : List Tile) :
    (getAdjacentTiles tile l).length ≤ 4 :=
  le_trans (List.length_filterMap_le _ _) (by simp [directions])

theorem getAdjacentTiles_subset {tile : Tile} {l : List Tile} {u : Tile}
    (h : u ∈ getAdjacentTiles tile l) : u ∈ l := by
  unfold getAdjacentTiles at h
  rw [List.mem_filterMap] at h
  obtain ⟨d, -, hfind⟩ := h
  exact List.mem_of_find?_eq_some hfind

theorem activeAdjacent_mem {tiles : List Tile} {P : List ℕ} {tile u : Tile}
    (h : u ∈ activeAdjacent tiles P tile) :
    u ∈ tiles ∧ u.id ∉ P ∧ 0 < u.value := by
  unfold activeAdjacent at h
  rw [List.mem_filter] at h
  obtain ⟨hmem, hp⟩ := h
  simp only [Bool.and_eq_true, decide_eq_true_eq] at hp
  exact ⟨getAdjacentTiles_subset hmem, hp.1, hp.2⟩

theorem activeAdjacent_length_le (tiles : List Tile) (P : List ℕ) (tile : Tile) :
    (activeAdjacent tiles P tile).length ≤ 4 :=
  le_trans (List.length_filter_le _ _) (getAdjacentTiles_length_le tile tiles)

/-- Cube bound used in the factorization branch: with `v > 0`, four tiles of
value at most `v / 2` weigh strictly less than the removed center `v`. -/
theorem four_half_cubes_lt (v : ℕ) (hv : 0 < v) : 4 * (v / 2) ^ 3 < v ^ 3 := by
  have h2 : 2 * (v / 2) ≤ v := by omega
  have h8 : 8 * (v / 2) ^ 3 ≤ v ^ 3 := by
    calc 8 * (v / 2) ^ 3 = (2 * (v / 2)) ^ 3 := by ring
    _ ≤ v ^ 3 := Nat.pow_le_pow_left h2 3
  have hv3 : 0 < v ^ 3 := Nat.pos_pow_of_pos 3 hv
  omega

end MeasureLemmas

section StepLemmas

theorem createCleanTile_value (s : Tile) (i v : ℕ) (sv : Option ℕ) :
    (createCleanTile s i v sv).value = v := rfl

theorem createCleanTile_id (s : Tile) (i v : ℕ) (sv : Option ℕ) :
    (createCleanTile s i v sv).id = i := rfl

theorem mem_factorCandidates {adj : List Tile} {tile u : Tile}
    (h : u ∈ factorCandidates adj tile) :
    u ∈ adj ∧ u.value ≠ 0 ∧ u.value ∣ tile.value := by
  unfold factorCandidates at h
  rw [List.mem_filter] at h
  obtain ⟨hmem, hdvd⟩ := h
  rw [isDivisor_natCast_iff] at hdvd
  exact ⟨hmem, hdvd.1, hdvd.2⟩

/-- Inner-loop bound of the factorization branch: each assignment entry
appends at most one tile of measure at most `B`, only extends the processed
set, and leaves `changed` alone. -/
theorem applyFactorTile_foldl (tiles : List Tile) (mult : ℕ) (B : ℕ) :
    ∀ (asg : List FactorAssign) (st : IterState),
      (∀ e ∈ asg, (e.value / e.divisor) ^ 3 ≤ B) →
      tileMeasure (asg.foldl (applyFactorTile tiles mult) st).result ≤
          tileMeasure st.result + asg.length * B ∧
        (∀ x ∈ st.processed, x ∈ (asg.foldl (applyFactorTile tiles mult) st).processed) ∧
        (asg.foldl (applyFactorTile tiles mult) st).changed = st.changed := by
  intro asg
  induction asg with
  | nil => intro st _; exact ⟨by simp, fun x hx => hx, rfl⟩
  | cons e rest ih =>
    intro st hB
    rw [List.foldl_cons]
    have hBrest : ∀ x ∈ rest, (x.value / x.divisor) ^ 3 ≤ B :=
      fun x hx => hB x (List.mem_cons_of_mem _ hx)
    obtain ⟨ih1, ih2, ih3⟩ := ih (applyFactorTile tiles mult st e) hBrest
    have hstep :
        tileMeasure (applyFactorTile tiles mult st e).result ≤ tileMeasure st.result + B ∧
        (∀ x ∈ st.processed, x ∈ (applyFactorTile tiles mult st e).processed) := by
      unfold applyFactorTile
      cases hfind : tiles.find? (fun u => u.id == e.id) with
      | none =>
        refine ⟨?_, fun x hx => hx⟩
        show tileMeasure st.result ≤ tileMeasure st.result + B
        omega
      | some adjacentTile =>
        constructor
        · rw [tileMeasure_append]
          by_cases h1 : e.value / e.divisor = 1
          · rw [if_pos h1]
            simp [tileMeasure, createCleanTile_value]
          · rw [if_neg h1]
            have := hB e (List.mem_cons_self _ _)
            simpa [tileMeasure, createCleanTile_value] using this
        · exact fun x hx => List.mem_cons_of_mem _ hx
    refine ⟨?_, fun x hx => ih2 x (hstep.2 x hx), ?_⟩
    · have h1 := hstep.1
      simp only [List.length_cons, Nat.succ_mul]
      omega
    · rw [ih3]
      have hch : (applyFactorTile tiles mult st e).changed = st.changed := by
        unfold applyFactorTile
        cases tiles.find? (fun u => u.id == e.id) <;> rfl
      rw [hch]

/-- One loop turn never increases the combined measure of the emitted tiles
and the still-unprocessed remaining tiles, and strictly decreases it
whenever it fires a merge (which is exactly when it sets `changed`).
`Hr` says that every tile of strictly larger value is still to be visited,
which holds along the ascending traversal. -/
theorem processTile_measure (tiles : List Tile) (mult : ℕ) (st : IterState) (t : Tile)
    (r : List Tile) (Hr : ∀ u ∈ tiles, t.value < u.value → u ∈ r) :
    ((processTile tiles mult st t).changed = st.changed ∧
      tileMeasure (processTile tiles mult st t).result +
        unprocessedMeasure r (processTile tiles mult st t).processed ≤
      tileMeasure st.result + unprocessedMeasure (t :: r) st.processed)
    ∨ ((processTile tiles mult st t).changed = true ∧
      tileMeasure (processTile tiles mult st t).result +
        unprocessedMeasure r (processTile tiles mult st t).processed <
      tileMeasure st.result + unprocessedMeasure (t :: r) st.processed) := by
  by_cases hv : t.value = 0
  · left
    unfold processTile
    rw [if_pos hv]
    refine ⟨rfl, ?_⟩
    rw [tileMeasure_append, unprocessedMeasure_cons]
    simp [tileMeasure, hv]
  by_cases hp : t.id ∈ st.processed
  · left
    unfold processTile
    rw [if_neg hv, if_pos hp]
    refine ⟨rfl, ?_⟩
    rw [unprocessedMeasure_cons, if_neg (by simpa using hp)]
    omega
  have hcons : unprocessedMeasure (t :: r) st.processed =
      t.value ^ 3 + unprocessedMeasure r st.processed := by
    rw [unprocessedMeasure_cons, if_pos hp]
  have htpos : 0 < t.value ^ 3 := Nat.pos_pow_of_pos 3 (Nat.pos_of_ne_zero hv)
  unfold processTile
  rw [if_neg hv, if_neg hp]
  dsimp only
  split
  case _ assignment heq =>
    right
    -- recover the successful factorization call
    have hsome : checkMultiTileFactorization t.value
        ((factorCandidates (activeAdjacent tiles st.processed t) t).map
          (fun u => ⟨u.value, u.id⟩)) = some assignment := by
      by_cases hl : 2 ≤ (factorCandidates (activeAdjacent tiles st.processed t) t).length
      · rwa [if_pos hl] at heq
      · rw [if_neg hl] at heq; exact absurd heq (by simp)
    obtain ⟨-, -, halen, hprod, hentries, -⟩ := checkMultiTileFactorization_sound hsome
    -- every assigned value divides the center value, so quotients are ≤ value/2
    have hB : ∀ e ∈ assignment, (e.value / e.divisor) ^ 3 ≤ (t.value / 2) ^ 3 := by
      intro e he
      obtain ⟨hd2, -, c, hc, -, hval⟩ := hentries e he
      rw [List.mem_map] at hc
      obtain ⟨u, hu, hcu⟩ := hc
      obtain ⟨-, -, hdvd⟩ := mem_factorCandidates hu
      have hvle : e.value ≤ t.value := by
        rw [hval, ← hcu]
        exact Nat.le_of_dvd (Nat.pos_of_ne_zero hv) hdvd
      have : e.value / e.divisor ≤ t.value / 2 :=
        le_trans (Nat.div_le_div_left hd2 (by norm_num)) (Nat.div_le_div_right hvle)
      exact Nat.pow_le_pow_left this 3
    have hlen4 : assignment.length ≤ 4 := by
      have h1 : ((factorCandidates (activeAdjacent tiles st.processed t) t).map
          (fun u => (⟨u.value, u.id⟩ : FactorCand))).length ≤ 4 := by
        rw [List.length_map]
        exact le_trans (List.length_filter_le _ _)
          (activeAdjacent_length_le tiles st.processed t)
      omega
    -- the center always disappears: the divisor product is the center value
    have hproduct : factorProduct assignment = t.value := by
      rw [factorProduct, ← hprod, List.prod_eq_foldl, List.foldl_map]
    have hquot : t.value / factorProduct assignment = 1 := by
      rw [hproduct, Nat.div_self (Nat.pos_of_ne_zero hv)]
    obtain ⟨hf1, hf2, hf3⟩ := applyFactorTile_foldl tiles mult ((t.value / 2) ^ 3)
      assignment
      { st with
        changed := true
        processed := t.id :: st.processed
        score := st.score + t.value * mult
        result := st.result ++
          [centerReplacement t st.currentId (t.value / factorProduct assignment)]
        currentId := st.currentId + 1 } hB
    refine ⟨hf3.trans rfl, ?_⟩
    rw [hcons]
    have hres : tileMeasure
        (st.result ++ [centerReplacement t st.currentId (t.value / factorProduct assignment)])
        = tileMeasure st.result := by
      rw [tileMeasure_append, centerReplacement, if_pos hquot]
      simp [tileMeasure, createCleanTile_value]
    have hf1' : tileMeasure (applyFactorization tiles mult st t assignment).result ≤
        tileMeasure (st.result ++
          [centerReplacement t st.currentId (t.value / factorProduct assignment)]) +
          assignment.length * (t.value / 2) ^ 3 := hf1
    have hmono : unprocessedMeasure r
        (applyFactorization tiles mult st t assignment).processed ≤
        unprocessedMeasure r st.processed := by
      apply unprocessedMeasure_mono
      intro x hx
      exact hf2 x (List.mem_cons_of_mem _ hx)
    have hcube := four_half_cubes_lt t.value (Nat.pos_of_ne_zero hv)
    have hlenB : assignment.length * (t.value / 2) ^ 3 ≤ 4 * (t.value / 2) ^ 3 :=
      Nat.mul_le_mul_right _ hlen4
    show tileMeasure (applyFactorization tiles mult st t assignment).result +
        unprocessedMeasure r (applyFactorization tiles mult st t assignment).processed <
      tileMeasure st.result + (t.value ^ 3 + unprocessedMeasure r st.processed)
    omega
  case _ heq =>
    split
    case _ a heq2 =>
      right
      unfold applyEqualElimination
      refine ⟨rfl, ?_⟩
      rw [hcons, tileMeasure_append]
      have hzero : tileMeasure [createCleanTile t st.currentId 0 (some t.value),
          createCleanTile a (st.currentId + 1) 0 (some a.value)] = 0 := by
        simp [tileMeasure, createCleanTile_value]
      have hmono : unprocessedMeasure r (a.id :: t.id :: st.processed) ≤
          unprocessedMeasure r st.processed := by
        apply unprocessedMeasure_mono
        intro x hx
        exact List.mem_cons_of_mem _ (List.mem_cons_of_mem _ hx)
      simp only [IterState.mk.injEq]
      omega
    case _ heq2 =>
      split
      case _ a heq3 =>
        right
        -- extract the facts recorded by the find? predicate
        have hamem : a ∈ activeAdjacent tiles st.processed t := by
          have := List.mem_of_find?_eq_some heq3
          rwa [List.mem_insertionSort] at this
        obtain ⟨hatiles, hanotp, hapos⟩ := activeAdjacent_mem hamem
        have hpred := List.find?_some heq3
        simp only [Bool.and_eq_true, decide_eq_true_eq] at hpred
        obtain ⟨⟨-, hne⟩, hdiv⟩ := hpred
        rw [isDivisor_natCast_iff] at hdiv
        have hlt : t.value < a.value :=
          lt_of_le_of_ne (Nat.le_of_dvd hapos hdiv.2) hne
        have hain : a ∈ r := Hr a hatiles hlt
        have hrem := unprocessedMeasure_remove r st.processed
          (a.id :: t.id :: st.processed) a hain hanotp (List.mem_cons_self _ _)
          (fun x hx => List.mem_cons_of_mem _ (List.mem_cons_of_mem _ hx))
        unfold applyRegularMerge
        dsimp only
        refine ⟨rfl, ?_⟩
        rw [hcons, tileMeasure_append]
        have hpush : tileMeasure [createCleanTile t st.currentId 0 (some t.value),
            if a.value / t.value = 1 then
              createCleanTile a (st.currentId + 1) 0 (some a.value)
            else
              createCleanTile a (st.currentId + 1) (a.value / t.value) (some a.value)] ≤
            a.value ^ 3 := by
          by_cases h1 : a.value / t.value = 1
          · rw [if_pos h1]; simp [tileMeasure, createCleanTile_value]
          · rw [if_neg h1]
            have : a.value / t.value ≤ a.value := Nat.div_le_self _ _
            have := Nat.pow_le_pow_left this 3
            simp only [tileMeasure, List.map_cons, List.map_nil, List.sum_cons,
              List.sum_nil, createCleanTile_value]
            omega
        omega
      case _ heq3 =>
        left
        refine ⟨rfl, ?_⟩
        rw [hcons, tileMeasure_append]
        simp only [tileMeasure, List.map_cons, List.map_nil, List.sum_cons, List.sum_nil]
        omega

end StepLemmas

section IterationMeasure

/-- Fold version of the step bound, along a suffix of the sorted traversal
list: the final emitted measure is bounded by the starting measure plus the
unprocessed remainder, strictly when the fold turned `changed` on. -/
theorem foldl_processTile_measure (tiles : List Tile) (mult : ℕ)
    (sortedTiles : List Tile)
    (hsort : List.Pairwise (fun a b : Tile => a.value ≤ b.value) sortedTiles)
    (hperm : sortedTiles.Perm tiles) :
    ∀ (l : List Tile) (st : IterState), l <:+ sortedTiles →
      tileMeasure (l.foldl (processTile tiles mult) st).result ≤
          tileMeasure st.result + unprocessedMeasure l st.processed ∧
        (st.changed = false → (l.foldl (processTile tiles mult) st).changed = true →
          tileMeasure (l.foldl (processTile tiles mult) st).result <
            tileMeasure st.result + unprocessedMeasure l st.processed) := by
  intro l
  induction l with
  | nil =>
    intro st _
    refine ⟨by simp [unprocessedMeasure_nil], ?_⟩
    intro h1 h2
    rw [List.foldl_nil] at h2
    rw [h1] at h2
    exact absurd h2 (by simp)
  | cons t r ih =>
    intro st hsuf
    have hsufr : r <:+ sortedTiles := (List.suffix_cons t r).trans hsuf
    have Hr : ∀ u ∈ tiles, t.value < u.value → u ∈ r := by
      intro u hu hlt
      have husort : u ∈ sortedTiles := hperm.mem_iff.mpr hu
      obtain ⟨pre, hpre⟩ := hsuf
      rw [← hpre] at husort hsort
      rw [List.pairwise_append] at hsort
      rcases List.mem_append.mp husort with h | h
      · exact absurd (hsort.2.2 u h t (List.mem_cons_self _ _)) (by omega)
      · rcases List.mem_cons.mp h with h | h
        · subst h; omega
        · exact h
    rw [List.foldl_cons]
    rcases processTile_measure tiles mult st t r Hr with ⟨hch, hle⟩ | ⟨hch, hlt⟩
    · obtain ⟨ih1, ih2⟩ := ih (processTile tiles mult st t) hsufr
      refine ⟨le_trans ih1 (by omega), ?_⟩
      intro h1 h2
      have := ih2 (by rw [hch, h1]) h2
      omega
    · obtain ⟨ih1, -⟩ := ih (processTile tiles mult st t) hsufr
      have hfin : tileMeasure (r.foldl (processTile tiles mult)
            (processTile tiles mult st t)).result <
          tileMeasure st.result + unprocessedMeasure (t :: r) st.processed := by
        omega
      exact ⟨le_of_lt hfin, fun _ _ => hfin⟩

theorem unprocessedMeasure_empty (l : List Tile) :
    unprocessedMeasure l [] = tileMeasure l := by
  unfold unprocessedMeasure tileMeasure
  congr 1
  induction l with
  | nil => rfl
  | cons t r ih => rw [List.filter_cons, if_pos (by simp), List.map_cons, List.map_cons, ih]

/-- A pass that reports a change strictly decreases the sum of the cubes of
the tile values. -/
instance : IsTotal Tile (fun a b => a.value ≤ b.value) :=
  ⟨fun a b => Nat.le_total a.value b.value⟩

instance : IsTrans Tile (fun a b => a.value ≤ b.value) :=
  ⟨fun _ _ _ hab hbc => le_trans hab hbc⟩

theorem processSingleIteration_measure (tiles : List Tile) (n m : ℕ)
    (h : (processSingleIteration tiles n m).changed = true) :
    tileMeasure (processSingleIteration tiles n m).tiles < tileMeasure tiles := by
  have hsort : List.Pairwise (fun a b : Tile => a.value ≤ b.value)
      (List.insertionSort (fun a b => a.value ≤ b.value) tiles) :=
    List.sorted_insertionSort (fun a b : Tile => a.value ≤ b.value) tiles
  have hperm := List.perm_insertionSort (fun a b : Tile => a.value ≤ b.value) tiles
  obtain ⟨-, hstrict⟩ := foldl_processTile_measure tiles m
    (List.insertionSort (fun a b => a.value ≤ b.value) tiles) hsort hperm
    (List.insertionSort (fun a b => a.value ≤ b.value) tiles)
    ⟨[], [], false, 0, n⟩ (List.suffix_refl _)
  have hmeq : tileMeasure (List.insertionSort (fun a b => a.value ≤ b.value) tiles)
      = tileMeasure tiles := by
    unfold tileMeasure
    exact (hperm.map (fun t : Tile => t.value ^ 3)).sum_eq
  have := hstrict rfl h
  calc tileMeasure (processSingleIteration tiles n m).tiles
      < tileMeasure (⟨[], [], false, 0, n⟩ : IterState).result +
        unprocessedMeasure (List.insertionSort (fun a b => a.value ≤ b.value) tiles) [] := this
    _ = tileMeasure tiles := by
        rw [unprocessedMeasure_empty, hmeq]
        simp [tileMeasure]

end IterationMeasure

/-- From the chain-reaction module: the `while (true)` loop of
`processChainReactions`.  Each round calls the single-pass reducer with
multiplier `chainMultiplier * 2 ^ chainCount`; an unchanged pass ends the
loop (its score, id and board are discarded); a changed pass commits the
new board, id and score, bumps the chain count and records the board for
animation.  The loop terminates because a changed pass strictly decreases
`tileMeasure`. -/
def processChainLoop (currentTiles : List Tile) (chainMultiplier : ℕ) (currentTileId : ℕ)
    (totalScore chainCount : ℕ) (chainSteps : List (List Tile)) : ChainOut :=
  let iteration := processSingleIteration currentTiles currentTileId
    (chainMultiplier * 2 ^ chainCount)
  if h : iteration.changed then
    processChainLoop iteration.tiles chainMultiplier iteration.nextTileId
      (totalScore + iteration.score) (chainCount + 1) (chainSteps ++ [iteration.tiles])
  else
    ⟨currentTiles.filter (fun t => decide (t.value ≠ 0)), totalScore, chainCount,
      chainSteps, currentTileId⟩
termination_by tileMeasure currentTiles
decreasing_by
  exact processSingleIteration_measure currentTiles currentTileId
    (chainMultiplier * 2 ^ chainCount) h

/-- From the chain-reaction module: `processChainReactions(tiles,
chainMultiplier, startTileId)` runs the loop from score 0, chain count 0 and
an empty step list, and finally filters out the value-0 tiles. -/
def processChainReactions (tiles : List Tile) (chainMultiplier : ℕ) (startTileId : ℕ) :
    ChainOut :=
  processChainLoop tiles chainMultiplier startTileId 0 0 []

section ClaimC8

/-- C8, counterexample: the source `isDivisor` has no sign guard, so
`isDivisor(-2, 4)` is `true` although `-2 > 0` fails; the claimed
equivalence "true iff `a > 0` and `b mod a == 0`" is false at
`a = -2`, `b = 4`. -/
theorem C8_counterexample :
    ¬ (isDivisor (-2) 4 = true ↔ ((-2 : ℤ) > 0 ∧ (4 : ℤ) % (-2) = 0)) := by decide

/-- C8, amended: `isDivisor a b` is true iff `a ≠ 0` and `a` divides `b`
(JavaScript `b % 0` is `NaN`, which never equals 0, so a zero divisor is
still rejected; but negative divisors are accepted). -/
theorem C8_amended : ∀ a b : ℤ, isDivisor a b = true ↔ a ≠ 0 ∧ a ∣ b :=
  isDivisor_iff

end ClaimC8

section ClaimC9

/-- C9: `checkPerfectPowerElimination` returns `square` exactly on equal
perfect squares, `cube` exactly on equal perfect cubes that are not perfect
squares (square takes priority), and `isPerfectCube n` holds iff `n` is a
positive integer cube — the float-based cube-root recovery plus exact
re-cubing coincides with the exact integer definition. -/
theorem C9_perfect_power_classification : ∀ v1 v2 n : ℕ,
    (checkPerfectPowerElimination v1 v2 = some PowerKind.square ↔
      v1 = v2 ∧ 0 < v1 ∧ ∃ k, k * k = v1) ∧
    (checkPerfectPowerElimination v1 v2 = some PowerKind.cube ↔
      v1 = v2 ∧ ¬ (0 < v1 ∧ ∃ k, k * k = v1) ∧ (0 < v1 ∧ ∃ k, k ^ 3 = v1)) ∧
    (isPerfectCube n = true ↔ 0 < n ∧ ∃ k, k ^ 3 = n) := by
  intro v1 v2 n
  refine ⟨?_, ?_, isPerfectCube_iff n⟩
  · unfold checkPerfectPowerElimination
    by_cases hne : v1 ≠ v2
    · simp [hne, fun h : v1 = v2 => hne h]
    · push_neg at hne
      subst hne
      by_cases hsq : isPerfectSquare v1 = true
      · simp [hsq, (isPerfectSquare_iff v1).mp hsq]
      · simp only [ne_eq, not_true_eq_false, if_false, hsq]
        rw [← isPerfectSquare_iff]
        by_cases hcb : isPerfectCube v1 = true <;> simp [hcb, hsq]
  · unfold checkPerfectPowerElimination
    by_cases hne : v1 ≠ v2
    · simp [hne, fun h : v1 = v2 => hne h]
    · push_neg at hne
      subst hne
      by_cases hsq : isPerfectSquare v1 = true
      · simp [hsq, (isPerfectSquare_iff v1).mp hsq]
      · simp only [ne_eq, not_true_eq_false, if_false, hsq]
        rw [← isPerfectSquare_iff, ← isPerfectCube_iff]
        by_cases hcb : isPerfectCube v1 = true <;> simp [hcb, hsq]

end ClaimC9

section ClaimC10

/-- C10: a successful `checkMultiTileFactorization` returns divisors whose
product is exactly the center value (never a proper divisor of it); hence in
the reducer's factorization branch `centerNewValue` is always 1, and the
emitted center replacement always has value 0. -/
theorem C10_factorization_product_exact :
    ∀ (center : ℕ) (cands : List FactorCand) (asg : List FactorAssign),
      checkMultiTileFactorization center cands = some asg →
      (asg.map FactorAssign.divisor).prod = center ∧
      center / factorProduct asg = 1 ∧
      (∀ (tile : Tile) (i : ℕ), tile.value = center →
        (centerReplacement tile i (tile.value / factorProduct asg)).value = 0) := by
  intro center cands asg h
  obtain ⟨-, -, -, hprod, hentries, -⟩ := checkMultiTileFactorization_sound h
  have hpos : 0 < center := by
    rw [← hprod]
    apply List.prod_pos
    intro a ha
    rw [List.mem_map] at ha
    obtain ⟨e, he, rfl⟩ := ha
    have := (hentries e he).1
    omega
  have hfp : factorProduct asg = center := by
    rw [factorProduct, ← hprod, List.prod_eq_foldl, List.foldl_map]
  have hquot : center / factorProduct asg = 1 := by
    rw [hfp, Nat.div_self hpos]
  refine ⟨hprod, hquot, ?_⟩
  intro tile i htv
  rw [centerReplacement, htv, hquot, if_pos rfl, createCleanTile_value]

/-- C10, witness: the factorization of 12 by neighbours 3 and 4. -/
theorem C10_witness :
    ((([⟨2, 3, 3⟩, ⟨3, 4, 4⟩] : List FactorAssign).map FactorAssign.divisor).prod = 12 ∧
      12 / factorProduct [⟨2, 3, 3⟩, ⟨3, 4, 4⟩] = 1 ∧
      (∀ (tile : Tile) (i : ℕ), tile.value = 12 →
        (centerReplacement tile i
          (tile.value / factorProduct [⟨2, 3, 3⟩, ⟨3, 4, 4⟩])).value = 0)) :=
  C10_factorization_product_exact 12 [⟨3, 2⟩, ⟨4, 3⟩] [⟨2, 3, 3⟩, ⟨3, 4, 4⟩] (by decide)

end ClaimC10

section ClaimC3

/-- C3, counterexample: with two distinct candidates that share id 7 (value
2 each) and center 4, the returned assignment names id 7 twice, so "each
candidate's id is used at most once" fails as stated. -/
theorem C3_counterexample :
    checkMultiTileFactorization 4 [⟨2, 7⟩, ⟨2, 7⟩] = some [⟨7, 2, 2⟩, ⟨7, 2, 2⟩] ∧
    ¬ (([⟨7, 2, 2⟩, ⟨7, 2, 2⟩] : List FactorAssign).map FactorAssign.id).Nodup := by
  constructor
  · decide
  · decide

/-- C3, amended: `checkMultiTileFactorization` fails with fewer than 2
candidates; a returned assignment names at least 2 entries, never more than
the candidate count, each entry's divisor exceeds 1 and divides the entry's
candidate value, the divisor product divides the center evenly, and each
*candidate position* is used at most once — so the ids are pairwise distinct
whenever the candidates' ids are. -/
theorem C3_amended : ∀ (center : ℕ) (cands : List FactorCand),
    (cands.length < 2 → checkMultiTileFactorization center cands = none) ∧
    (∀ asg, checkMultiTileFactorization center cands = some asg →
      2 ≤ asg.length ∧ asg.length ≤ cands.length ∧
      (∀ e ∈ asg, 1 < e.divisor ∧ e.divisor ∣ e.value ∧
        ∃ c ∈ cands, e.id = c.id ∧ e.value = c.value) ∧
      (asg.map FactorAssign.divisor).prod ∣ center ∧
      ((cands.map FactorCand.id).Nodup → (asg.map FactorAssign.id).Nodup)) := by
  intro center cands
  constructor
  · intro hlen
    unfold checkMultiTileFactorization
    rw [if_pos hlen]
  · intro asg h
    obtain ⟨-, h2, h3, h4, h5, h6⟩ := checkMultiTileFactorization_sound h
    exact ⟨h2, h3, h5, h4 ▸ dvd_rfl, h6⟩

/-- C3, witness: a failing singleton-candidate call and the successful
factorization of 12 by candidates 3 and 4. -/
theorem C3_witness :
    checkMultiTileFactorization 12 [⟨3, 2⟩] = none ∧
    (2 ≤ ([⟨2, 3, 3⟩, ⟨3, 4, 4⟩] : List FactorAssign).length ∧
      ([⟨2, 3, 3⟩, ⟨3, 4, 4⟩] : List FactorAssign).length ≤
        ([⟨3, 2⟩, ⟨4, 3⟩] : List FactorCand).length ∧
      (∀ e ∈ ([⟨2, 3, 3⟩, ⟨3, 4, 4⟩] : List FactorAssign), 1 < e.divisor ∧
        e.divisor ∣ e.value ∧
        ∃ c ∈ ([⟨3, 2⟩, ⟨4, 3⟩] : List FactorCand), e.id = c.id ∧ e.value = c.value) ∧
      (([⟨2, 3, 3⟩, ⟨3, 4, 4⟩] : List FactorAssign).map FactorAssign.divisor).prod ∣ 12 ∧
      ((([⟨3, 2⟩, ⟨4, 3⟩] : List FactorCand).map FactorCand.id).Nodup →
        (([⟨2, 3, 3⟩, ⟨3, 4, 4⟩] : List FactorAssign).map FactorAssign.id).Nodup)) :=
  ⟨(C3_amended 12 [⟨3, 2⟩]).1 (by decide),
    (C3_amended 12 [⟨3, 2⟩, ⟨4, 3⟩]).2 [⟨2, 3, 3⟩, ⟨3, 4, 4⟩] (by decide)⟩

end ClaimC3

section TwoTileBoards

/-- `u` occupies one of the four orthogonal neighbour positions of `t`. -/
def AdjacentPos (t u : Tile) : Prop :=
  (u.row = t.row - 1 ∧ u.col = t.col) ∨ (u.row = t.row + 1 ∧ u.col = t.col) ∨
  (u.row = t.row ∧ u.col = t.col - 1) ∨ (u.row = t.row ∧ u.col = t.col + 1)

theorem AdjacentPos.symm {t u : Tile} (h : AdjacentPos t u) : AdjacentPos u t := by
  unfold AdjacentPos at h ⊢
  rcases h with ⟨h1, h2⟩ | ⟨h1, h2⟩ | ⟨h1, h2⟩ | ⟨h1, h2⟩
  · right; left; omega
  · left; omega
  · right; right; right; omega
  · right; right; left; omega

/-- On a two-tile board whose tiles are mutually adjacent, the adjacency
scan from `A` finds exactly `[B]`. -/
theorem getAdjacentTiles_pair (A B : Tile) (l : List Tile)
    (hl : l = [A, B] ∨ l = [B, A]) (hadj : AdjacentPos A B) :
    getAdjacentTiles A l = [B] := by
  have f1 : ∀ x : ℤ, (x == x + -1) = false := fun x => by
    simp only [beq_eq_false_iff_ne]; omega
  have f2 : ∀ x : ℤ, (x == x + 1) = false := fun x => by
    simp only [beq_eq_false_iff_ne]; omega
  have f3 : ∀ x : ℤ, (x - 1 == x + -1) = true := fun x => by
    simp only [beq_iff_eq]; omega
  have f4 : ∀ x : ℤ, (x - 1 == x + 1) = false := fun x => by
    simp only [beq_eq_false_iff_ne]; omega
  have f5 : ∀ x : ℤ, (x - 1 == x) = false := fun x => by
    simp only [beq_eq_false_iff_ne]; omega
  have f6 : ∀ x : ℤ, (x + 1 == x + -1) = false := fun x => by
    simp only [beq_eq_false_iff_ne]; omega
  have f7 : ∀ x : ℤ, (x + 1 == x) = false := fun x => by
    simp only [beq_eq_false_iff_ne]; omega
  rcases hadj with ⟨h1, h2⟩ | ⟨h1, h2⟩ | ⟨h1, h2⟩ | ⟨h1, h2⟩ <;>
    rcases hl with rfl | rfl <;>
    · simp [getAdjacentTiles, directions, h1, h2, f1, f2, f3, f4, f5, f6, f7]

theorem activeAdjacent_pair (A B : Tile) (l : List Tile)
    (hl : l = [A, B] ∨ l = [B, A]) (hadj : AdjacentPos A B) (h0B : 0 < B.value) :
    activeAdjacent l [] A = [B] := by
  unfold activeAdjacent
  rw [getAdjacentTiles_pair A B l hl hadj]
  simp [h0B]

theorem processTile_skip (tiles : List Tile) (mult : ℕ) (st : IterState) (t : Tile)
    (hv : t.value ≠ 0) (hp : t.id ∈ st.processed) :
    processTile tiles mult st t = st := by
  unfold processTile
  rw [if_neg hv, if_pos hp]

/-- A two-tile board `X, Y` (in traversal order) with `X.value` properly
dividing `Y.value`: the visited `X` fires the ordinary divisor merge
against `Y`. -/
theorem processTile_divisor_pair (X Y : Tile) (l : List Tile) (mult : ℕ) (st : IterState)
    (hl : l = [X, Y] ∨ l = [Y, X]) (hadj : AdjacentPos X Y)
    (h0X : 0 < X.value) (h0Y : 0 < Y.value)
    (hdvd : X.value ∣ Y.value) (hne : X.value ≠ Y.value)
    (hpX : X.id ∉ st.processed) (hpY : Y.id ∉ st.processed) :
    processTile l mult st X = applyRegularMerge mult st X Y := by
  have hXY : X.value < Y.value := lt_of_le_of_ne (Nat.le_of_dvd h0Y hdvd) hne
  have hadjl : activeAdjacent l st.processed X = [Y] := by
    unfold activeAdjacent
    rw [getAdjacentTiles_pair X Y l hl hadj]
    simp [h0Y, hpY]
  have hfc : factorCandidates [Y] X = [] := by
    unfold factorCandidates
    rw [List.filter_cons]
    have : isDivisor (Y.value : ℤ) (X.value : ℤ) = false := by
      rw [Bool.eq_false_iff]
      intro hcontra
      rw [isDivisor_natCast_iff] at hcontra
      have := Nat.le_of_dvd h0X hcontra.2
      omega
    rw [this]
    simp
  have hequal : List.find? (fun a => checkEqualValueElimination X.value a.value) [Y]
      = none := by
    rw [List.find?_cons]
    have : checkEqualValueElimination X.value Y.value = false := by
      unfold checkEqualValueElimination
      simp [hne]
    rw [this]
    rfl
  have hfind : List.find? (fun a => decide (a.id ∉ st.processed) &&
      decide (X.value ≠ a.value) && isDivisor (X.value : ℤ) (a.value : ℤ)) [Y]
      = some Y := by
    rw [List.find?_cons]
    have h1 : (decide (Y.id ∉ st.processed) && decide (X.value ≠ Y.value) &&
        isDivisor (X.value : ℤ) (Y.value : ℤ)) = true := by
      rw [Bool.and_eq_true, Bool.and_eq_true]
      refine ⟨⟨by simpa using hpY, by simpa using hne⟩, ?_⟩
      rw [isDivisor_natCast_iff]
      exact ⟨by omega, hdvd⟩
    rw [h1]
  unfold processTile
  rw [if_neg (by omega), if_neg hpX]
  dsimp only
  rw [hadjl, hfc]
  rw [if_neg (show ¬ (2 ≤ ([] : List Tile).length) by simp)]
  dsimp only
  rw [hequal]
  dsimp only
  rw [show List.insertionSort (fun a b : Tile => b.value ≤ a.value) [Y] = [Y] from rfl,
    hfind]

/-- A two-tile board `X, Y` (in traversal order) with equal positive
values: the visited `X` fires equal-value elimination against `Y` (the
factorization branch sees only one candidate and is skipped). -/
theorem processTile_equal_pair (X Y : Tile) (l : List Tile) (mult : ℕ) (st : IterState)
    (hl : l = [X, Y] ∨ l = [Y, X]) (hadj : AdjacentPos X Y)
    (h0X : 0 < X.value) (hv : X.value = Y.value)
    (hpX : X.id ∉ st.processed) (hpY : Y.id ∉ st.processed) :
    processTile l mult st X = applyEqualElimination mult st X Y := by
  have h0Y : 0 < Y.value := hv ▸ h0X
  have hadjl : activeAdjacent l st.processed X = [Y] := by
    unfold activeAdjacent
    rw [getAdjacentTiles_pair X Y l hl hadj]
    simp [h0Y, hpY]
  have hfc : factorCandidates [Y] X = [Y] := by
    unfold factorCandidates
    rw [List.filter_cons]
    have : isDivisor (Y.value : ℤ) (X.value : ℤ) = true := by
      rw [isDivisor_natCast_iff]
      exact ⟨by omega, hv ▸ dvd_rfl⟩
    rw [this]
    simp
  have hequal : List.find? (fun a => checkEqualValueElimination X.value a.value) [Y]
      = some Y := by
    rw [List.find?_cons]
    have : checkEqualValueElimination X.value Y.value = true := by
      unfold checkEqualValueElimination
      simp [hv]
    rw [this]
  unfold processTile
  rw [if_neg (by omega), if_neg hpX]
  dsimp only
  rw [hadjl, hfc]
  rw [if_neg (show ¬ (2 ≤ ([Y] : List Tile).length) by simp)]
  dsimp only
  rw [hequal]

end TwoTileBoards

section ClaimC1

/-- C1: on a board of exactly two adjacent tiles `A`, `B` with `A.value`
properly dividing `B.value` (both positive, per the data model), one pass
removes `A` (value 0), sets `B`'s value to `B.value / A.value` (removing it
too when the quotient is 1), reports a change, and gains
`B.value × multiplier`. -/
theorem C1_two_tile_divisor_merge (A B : Tile) (l : List Tile) (n m : ℕ)
    (hl : l = [A, B] ∨ l = [B, A]) (hadj : AdjacentPos A B)
    (h0A : 0 < A.value) (h0B : 0 < B.value)
    (hdvd : A.value ∣ B.value) (hne : A.value ≠ B.value) :
    (processSingleIteration l n m).changed = true ∧
    (processSingleIteration l n m).score = B.value * m ∧
    (processSingleIteration l n m).tiles.map Tile.value =
      [0, if B.value / A.value = 1 then 0 else B.value / A.value] := by
  have hAB : A.value < B.value := lt_of_le_of_ne (Nat.le_of_dvd h0B hdvd) hne
  have hsorted : List.insertionSort (fun a b : Tile => a.value ≤ b.value) l = [A, B] := by
    rcases hl with rfl | rfl
    · simp [List.orderedInsert, le_of_lt hAB]
    · simp [List.orderedInsert, show ¬ (B.value ≤ A.value) by omega]
  have hstepA : processTile l m ⟨[], [], false, 0, n⟩ A =
      applyRegularMerge m ⟨[], [], false, 0, n⟩ A B :=
    processTile_divisor_pair A B l m _ hl hadj h0A h0B hdvd hne (by simp) (by simp)
  have hstepB : processTile l m (applyRegularMerge m ⟨[], [], false, 0, n⟩ A B) B =
      applyRegularMerge m ⟨[], [], false, 0, n⟩ A B := by
    apply processTile_skip
    · omega
    · unfold applyRegularMerge
      exact List.mem_cons_self _ _
  unfold processSingleIteration
  rw [hsorted]
  dsimp only
  rw [List.foldl_cons, hstepA, List.foldl_cons, hstepB, List.foldl_nil]
  unfold applyRegularMerge
  dsimp only
  refine ⟨rfl, by omega, ?_⟩
  by_cases h1 : B.value / A.value = 1
  · rw [if_pos h1, if_pos h1]
    simp [createCleanTile_value]
  · rw [if_neg h1, if_neg h1]
    simp [createCleanTile_value]

/-- C1, witness: tiles of value 3 and 147 side by side; 147 / 3 = 49. -/
theorem C1_witness :
    (processSingleIteration [⟨1, 3, 0, 0, none⟩, ⟨2, 147, 0, 1, none⟩] 10 1).changed = true ∧
    (processSingleIteration [⟨1, 3, 0, 0, none⟩, ⟨2, 147, 0, 1, none⟩] 10 1).score = 147 * 1 ∧
    (processSingleIteration [⟨1, 3, 0, 0, none⟩, ⟨2, 147, 0, 1,
      none⟩] 10 1).tiles.map Tile.value = [0, if 147 / 3 = 1 then 0 else 147 / 3] :=
  C1_two_tile_divisor_merge ⟨1, 3, 0, 0, none⟩ ⟨2, 147, 0, 1, none⟩ _ 10 1
    (Or.inl rfl) (by right; right; right; exact ⟨rfl, rfl⟩)
    (by decide) (by decide) (by decide) (by decide)

end ClaimC1

section ClaimC2

/-- C2: on a board of exactly two adjacent tiles with the same positive
value `v`, one pass removes both (values 0) and gains `2 × v × multiplier`,
with no perfect-power condition on `v`. -/
theorem C2_two_tile_equal_elimination (A B : Tile) (l : List Tile) (n m : ℕ)
    (hl : l = [A, B] ∨ l = [B, A]) (hadj : AdjacentPos A B)
    (h0A : 0 < A.value) (hv : A.value = B.value) :
    (processSingleIteration l n m).changed = true ∧
    (processSingleIteration l n m).score = 2 * A.value * m ∧
    (processSingleIteration l n m).tiles.map Tile.value = [0, 0] := by
  have h0B : 0 < B.value := hv ▸ h0A
  rcases hl with rfl | rfl
  · have hsorted : List.insertionSort (fun a b : Tile => a.value ≤ b.value) [A, B]
        = [A, B] := by
      simp [List.orderedInsert, le_of_eq hv]
    have hstepA : processTile [A, B] m ⟨[], [], false, 0, n⟩ A =
        applyEqualElimination m ⟨[], [], false, 0, n⟩ A B :=
      processTile_equal_pair A B [A, B] m _ (Or.inl rfl) hadj h0A hv (by simp) (by simp)
    have hstepB : processTile [A, B] m (applyEqualElimination m ⟨[], [], false, 0, n⟩ A B) B =
        applyEqualElimination m ⟨[], [], false, 0, n⟩ A B := by
      apply processTile_skip
      · omega
      · unfold applyEqualElimination
        exact List.mem_cons_self _ _
    unfold processSingleIteration
    rw [hsorted]
    dsimp only
    rw [List.foldl_cons, hstepA, List.foldl_cons, hstepB, List.foldl_nil]
    unfold applyEqualElimination
    dsimp only
    refine ⟨rfl, by rw [hv]; ring, by simp [createCleanTile_value]⟩
  · have hsorted : List.insertionSort (fun a b : Tile => a.value ≤ b.value) [B, A]
        = [B, A] := by
      simp [List.orderedInsert, le_of_eq hv.symm]
    have hstepB : processTile [B, A] m ⟨[], [], false, 0, n⟩ B =
        applyEqualElimination m ⟨[], [], false, 0, n⟩ B A :=
      processTile_equal_pair B A [B, A] m _ (Or.inl rfl) hadj.symm h0B hv.symm
        (by simp) (by simp)
    have hstepA : processTile [B, A] m (applyEqualElimination m ⟨[], [], false, 0, n⟩ B A) A =
        applyEqualElimination m ⟨[], [], false, 0, n⟩ B A := by
      apply processTile_skip
      · omega
      · unfold applyEqualElimination
        exact List.mem_cons_self _ _
    unfold processSingleIteration
    rw [hsorted]
    dsimp only
    rw [List.foldl_cons, hstepB, List.foldl_cons, hstepA, List.foldl_nil]
    unfold applyEqualElimination
    dsimp only
    refine ⟨rfl, by rw [hv]; ring, by simp [createCleanTile_value]⟩

/-- C2, witness: two adjacent tiles of value 6 (neither a perfect square
nor cube); both vanish and the score delta is 12. -/
theorem C2_witness :
    (processSingleIteration [⟨1, 6, 0, 0, none⟩, ⟨2, 6, 0, 1, none⟩] 10 1).changed = true ∧
    (processSingleIteration [⟨1, 6, 0, 0, none⟩, ⟨2, 6, 0, 1, none⟩] 10 1).score = 2 * 6 * 1 ∧
    (processSingleIteration [⟨1, 6, 0, 0, none⟩, ⟨2, 6, 0, 1,
      none⟩] 10 1).tiles.map Tile.value = [0, 0] :=
  C2_two_tile_equal_elimination ⟨1, 6, 0, 0, none⟩ ⟨2, 6, 0, 1, none⟩ _ 10 1
    (Or.inl rfl) (by right; right; right; exact ⟨rfl, rfl⟩) (by decide) (by decide)

end ClaimC2

section ClaimC4

/-- A board of positive-valued tiles in which two tiles are stacked on the
same cell (1,1): the 7 is listed first and shadows the 4 underneath it in
the adjacency scans of the two neighbouring 4s. -/
def stackedBoard : List Tile :=
  [⟨10, 7, 1, 1, none⟩, ⟨1, 4, 0, 1, none⟩, ⟨2, 4, 1, 0, none⟩, ⟨3, 4, 1, 1, none⟩]

/-- C4, counterexample: on `stackedBoard` (all values positive) the pass
reports a change yet grows the board from 4 tiles to 6 — the two neighbour
4s are emitted unchanged *and* re-emitted halved by the center's
factorization, so "no pass increases the tile count" fails as stated. -/
theorem C4_counterexample :
    (∀ t ∈ stackedBoard, 0 < t.value) ∧
    (processSingleIteration stackedBoard 100 1).changed = true ∧
    stackedBoard.length = 4 ∧
    (processSingleIteration stackedBoard 100 1).tiles.length = 6 := by
  refine ⟨by decide, ?_, by decide, ?_⟩
  · decide
  · decide

theorem processChainLoop_chainCount :
    ∀ (n : ℕ) (tiles : List Tile) (m id score count : ℕ) (steps : List (List Tile)),
      tileMeasure tiles ≤ n →
      (processChainLoop tiles m id score count steps).chainCount ≤
        count + tileMeasure tiles := by
  intro n
  induction n with
  | zero =>
    intro tiles m id score count steps hn
    rw [processChainLoop]
    split
    case _ h =>
      have := processSingleIteration_measure tiles id (m * 2 ^ count) h
      omega
    case _ h => dsimp only; omega
  | succ k ih =>
    intro tiles m id score count steps hn
    rw [processChainLoop]
    split
    case _ h =>
      have hdec := processSingleIteration_measure tiles id (m * 2 ^ count) h
      have := ih (processSingleIteration tiles id (m * 2 ^ count)).tiles m
        (processSingleIteration tiles id (m * 2 ^ count)).nextTileId
        (score + (processSingleIteration tiles id (m * 2 ^ count)).score) (count + 1)
        (steps ++ [(processSingleIteration tiles id (m * 2 ^ count)).tiles]) (by omega)
      omega
    case _ h => dsimp only; omega

/-- C4, amended: the chain driver terminates on every finite board — every
pass that reports a change strictly decreases the sum of the cubes of the
tile values (each merge only emits tiles strictly lighter than a removed
one), so the loop reaches an unchanged pass after at most that many rounds.
(The tile count, however, can grow within a pass on boards with stacked
positive tiles, as the counterexample shows; values never increase.) -/
theorem C4_termination : ∀ (tiles : List Tile) (m id : ℕ),
    ((processSingleIteration tiles id m).changed = true →
      tileMeasure (processSingleIteration tiles id m).tiles < tileMeasure tiles) ∧
    (processChainReactions tiles m id).chainCount ≤ tileMeasure tiles := by
  intro tiles m id
  refine ⟨processSingleIteration_measure tiles id m, ?_⟩
  have := processChainLoop_chainCount (tileMeasure tiles) tiles m id 0 0 [] le_rfl
  simpa [processChainReactions] using this

/-- C4, witness: a changed pass on the two-tile board `[2, 4]` drops the
cube sum from 72 to 8, and its chain resolution takes at most 72 rounds. -/
theorem C4_witness :
    tileMeasure (processSingleIteration [⟨1, 2, 0, 0, none⟩, ⟨2, 4, 0, 1, none⟩] 10 1).tiles <
      tileMeasure [⟨1, 2, 0, 0, none⟩, ⟨2, 4, 0, 1, none⟩] ∧
    (processChainReactions [⟨1, 2, 0, 0, none⟩, ⟨2, 4, 0, 1, none⟩] 1 10).chainCount ≤
      tileMeasure [⟨1, 2, 0, 0, none⟩, ⟨2, 4, 0, 1, none⟩] :=
  ⟨(C4_termination [⟨1, 2, 0, 0, none⟩, ⟨2, 4, 0, 1, none⟩] 1 10).1 (by decide),
    (C4_termination [⟨1, 2, 0, 0, none⟩, ⟨2, 4, 0, 1, none⟩] 1 10).2⟩

end ClaimC4

section ClaimC6

/-- The canonical board and id-counter state before round `k` of the chain
driver started on `tiles0` with multiplier `m` and counter `id0`: round `k`
runs the single-pass reducer with multiplier `m * 2 ^ k` and commits its
board and counter when it reports a change. -/
def roundState (tiles0 : List Tile) (m id0 : ℕ) : ℕ → List Tile × ℕ
  | 0 => (tiles0, id0)
  | k + 1 =>
    let prev := roundState tiles0 m id0 k
    let it := processSingleIteration prev.1 prev.2 (m * 2 ^ k)
    if it.changed then (it.tiles, it.nextTileId) else prev

theorem processChainLoop_rounds :
    ∀ (n : ℕ) (tiles0 : List Tile) (m id0 : ℕ) (tiles : List Tile)
      (id score count : ℕ) (steps : List (List Tile)),
      tileMeasure tiles ≤ n →
      roundState tiles0 m id0 count = (tiles, id) →
      (processChainLoop tiles m id score count steps).scoreGained = score +
        ∑ j ∈ Finset.Ico count (processChainLoop tiles m id score count steps).chainCount,
          (processSingleIteration (roundState tiles0 m id0 j).1
            (roundState tiles0 m id0 j).2 (m * 2 ^ j)).score ∧
      count ≤ (processChainLoop tiles m id score count steps).chainCount ∧
      ∀ j, count ≤ j → j < (processChainLoop tiles m id score count steps).chainCount →
        (processSingleIteration (roundState tiles0 m id0 j).1
          (roundState tiles0 m id0 j).2 (m * 2 ^ j)).changed = true := by
  intro n
  induction n with
  | zero =>
    intro tiles0 m id0 tiles id score count steps hn hround
    rw [processChainLoop]
    split
    case _ h =>
      have := processSingleIteration_measure tiles id (m * 2 ^ count) h
      omega
    case _ h =>
      dsimp only
      refine ⟨by simp, le_rfl, ?_⟩
      intro j hj1 hj2
      omega
  | succ k ih =>
    intro tiles0 m id0 tiles id score count steps hn hround
    rw [processChainLoop]
    split
    case _ h =>
      have hdec := processSingleIteration_measure tiles id (m * 2 ^ count) h
      have hround1 : roundState tiles0 m id0 (count + 1) =
          ((processSingleIteration tiles id (m * 2 ^ count)).tiles,
            (processSingleIteration tiles id (m * 2 ^ count)).nextTileId) := by
        rw [roundState]
        rw [hround]
        simp [h]
      obtain ⟨ihs, ihc, ihch⟩ := ih tiles0 m id0
        (processSingleIteration tiles id (m * 2 ^ count)).tiles
        (processSingleIteration tiles id (m * 2 ^ count)).nextTileId
        (score + (processSingleIteration tiles id (m * 2 ^ count)).score) (count + 1)
        (steps ++ [(processSingleIteration tiles id (m * 2 ^ count)).tiles])
        (by omega) hround1
      have hcm := Nat.lt_of_lt_of_le (Nat.lt_succ_self count) ihc
      refine ⟨?_, le_of_lt hcm, ?_⟩
      · rw [ihs, Finset.sum_eq_sum_Ico_succ_bot hcm, hround]
        dsimp only
        omega
      · intro j hj1 hj2
        rcases Nat.eq_or_lt_of_le hj1 with rfl | hlt
        · rw [hround]
          exact h
        · exact ihch j hlt hj2
    case _ h =>
      dsimp only
      refine ⟨by simp, le_rfl, ?_⟩
      intro j hj1 hj2
      omega

/-- C6: the chain driver's round `k` (0-based) runs the reducer with
multiplier `m * 2 ^ k` on the round-`k` board, every counted round reported
a change, and the returned `scoreGained` is exactly the sum of those
rounds' score deltas. -/
theorem C6_round_multipliers : ∀ (tiles : List Tile) (m id : ℕ),
    (processChainReactions tiles m id).scoreGained =
      ∑ j ∈ Finset.range (processChainReactions tiles m id).chainCount,
        (processSingleIteration (roundState tiles m id j).1 (roundState tiles m id j).2
          (m * 2 ^ j)).score ∧
    ∀ j, j < (processChainReactions tiles m id).chainCount →
      (processSingleIteration (roundState tiles m id j).1 (roundState tiles m id j).2
        (m * 2 ^ j)).changed = true := by
  intro tiles m id
  obtain ⟨hs, -, hch⟩ := processChainLoop_rounds (tileMeasure tiles) tiles m id tiles id
    0 0 [] le_rfl rfl
  refine ⟨?_, fun j hj => hch j (Nat.zero_le j) hj⟩
  rw [processChainReactions, hs, Finset.range_eq_Ico]
  omega

/-- C6, witness: on the board `[2, 4]` the chain has exactly one (changed)
round, and the returned score is that round's score. -/
theorem C6_witness :
    (processChainReactions [⟨1, 2, 0, 0, none⟩, ⟨2, 4, 0, 1, none⟩] 1 10).scoreGained =
      ∑ j ∈ Finset.range
        (processChainReactions [⟨1, 2, 0, 0, none⟩, ⟨2, 4, 0, 1, none⟩] 1 10).chainCount,
        (processSingleIteration
          (roundState [⟨1, 2, 0, 0, none⟩, ⟨2, 4, 0, 1, none⟩] 1 10 j).1
          (roundState [⟨1, 2, 0, 0, none⟩, ⟨2, 4, 0, 1, none⟩] 1 10 j).2 (1 * 2 ^ j)).score ∧
    (processSingleIteration
      (roundState [⟨1, 2, 0, 0, none⟩, ⟨2, 4, 0, 1, none⟩] 1 10 0).1
      (roundState [⟨1, 2, 0, 0, none⟩, ⟨2, 4, 0, 1, none⟩] 1 10 0).2 (1 * 2 ^ 0)).changed =
      true := by
  have h1 : (processSingleIteration [⟨1, 2, 0, 0, none⟩, ⟨2, 4, 0, 1, none⟩] 10
      (1 * 2 ^ 0)).changed = true := by decide
  have h2 : ¬ ((processSingleIteration
      (processSingleIteration [⟨1, 2, 0, 0, none⟩, ⟨2, 4, 0, 1, none⟩] 10 (1 * 2 ^ 0)).tiles
      (processSingleIteration [⟨1, 2, 0, 0, none⟩, ⟨2, 4, 0, 1, none⟩] 10
        (1 * 2 ^ 0)).nextTileId
      (1 * 2 ^ (0 + 1))).changed = true) := by decide
  have hcc : (processChainReactions [⟨1, 2, 0, 0, none⟩, ⟨2, 4, 0, 1, none⟩] 1 10).chainCount
      = 1 := by
    rw [processChainReactions, processChainLoop, dif_pos h1, processChainLoop, dif_neg h2]
  exact ⟨(C6_round_multipliers [⟨1, 2, 0, 0, none⟩, ⟨2, 4, 0, 1, none⟩] 1 10).1,
    (C6_round_multipliers [⟨1, 2, 0, 0, none⟩, ⟨2, 4, 0, 1, none⟩] 1 10).2 0 (by omega)⟩

end ClaimC6

section ClaimC7

/-- Invariant of the loop of `processSingleIteration` over the emitted list
and the id counter: the counter never falls below the incoming `nextTileId`
`n`; every emitted tile is either an input tile (id below `n`, assuming all
input ids are) or a freshly numbered replacement with id in `[n, counter)`;
and the fresh ids are emitted in strictly increasing order below the
counter. -/
def IdInv (tiles : List Tile) (n : ℕ) (res : List Tile) (cur : ℕ) : Prop :=
  n ≤ cur ∧
  (∀ t ∈ res, (t ∈ tiles ∧ t.id < n) ∨ (n ≤ t.id ∧ t.id < cur)) ∧
  List.Pairwise (· < ·) ((res.filter (fun t => decide (n ≤ t.id))).map Tile.id) ∧
  (∀ x ∈ (res.filter (fun t => decide (n ≤ t.id))).map Tile.id, x < cur)

theorem IdInv.pushOld {tiles : List Tile} {n : ℕ} {res : List Tile} {cur : ℕ}
    (inv : IdInv tiles n res cur) {t : Tile} (ht : t ∈ tiles) (hid : t.id < n) :
    IdInv tiles n (res ++ [t]) cur := by
  obtain ⟨i1, i2, i3, i4⟩ := inv
  have hnot : ¬ n ≤ t.id := by omega
  have hfilter : (res ++ [t]).filter (fun t => decide (n ≤ t.id)) =
      res.filter (fun t => decide (n ≤ t.id)) := by
    rw [List.filter_append]
    simp [List.filter_cons, hnot]
  refine ⟨i1, ?_, by rw [hfilter]; exact i3, by rw [hfilter]; exact i4⟩
  intro u hu
  rcases List.mem_append.mp hu with h | h
  · exact i2 u h
  · rw [List.mem_singleton] at h
    subst h
    exact Or.inl ⟨ht, hid⟩

theorem IdInv.pushFresh {tiles : List Tile} {n : ℕ} {res : List Tile} {cur : ℕ}
    (inv : IdInv tiles n res cur) {t : Tile} (hid : t.id = cur) :
    IdInv tiles n (res ++ [t]) (cur + 1) := by
  obtain ⟨i1, i2, i3, i4⟩ := inv
  have hle : n ≤ t.id := by omega
  have hfilter : (res ++ [t]).filter (fun t => decide (n ≤ t.id)) =
      res.filter (fun t => decide (n ≤ t.id)) ++ [t] := by
    rw [List.filter_append]
    simp [List.filter_cons, hle]
  refine ⟨by omega, ?_, ?_, ?_⟩
  · intro u hu
    rcases List.mem_append.mp hu with h | h
    · rcases i2 u h with h' | h'
      · exact Or.inl h'
      · exact Or.inr ⟨h'.1, by omega⟩
    · rw [List.mem_singleton] at h
      subst h
      exact Or.inr ⟨by omega, by omega⟩
  · rw [hfilter, List.map_append]
    rw [List.pairwise_append]
    refine ⟨i3, by simp, ?_⟩
    intro a ha b hb
    rw [List.map_cons, List.map_nil, List.mem_singleton] at hb
    subst hb
    rw [hid]
    exact i4 a ha
  · rw [hfilter, List.map_append]
    intro x hx
    rcases List.mem_append.mp hx with h | h
    · have := i4 x h
      omega
    · rw [List.map_cons, List.map_nil, List.mem_singleton] at h
      omega

theorem IdInv.mono {tiles : List Tile} {n : ℕ} {res : List Tile} {cur cur' : ℕ}
    (inv : IdInv tiles n res cur) (h : cur ≤ cur') : IdInv tiles n res cur' := by
  obtain ⟨i1, i2, i3, i4⟩ := inv
  refine ⟨by omega, ?_, i3, ?_⟩
  · intro u hu
    rcases i2 u hu with h' | h'
    · exact Or.inl h'
    · exact Or.inr ⟨h'.1, by omega⟩
  · intro x hx
    have := i4 x hx
    omega

theorem applyFactorTile_idInv (tiles : List Tile) (mult n : ℕ) :
    ∀ (asg : List FactorAssign) (st : IterState),
      IdInv tiles n st.result st.currentId →
      IdInv tiles n (asg.foldl (applyFactorTile tiles mult) st).result
        (asg.foldl (applyFactorTile tiles mult) st).currentId := by
  intro asg
  induction asg with
  | nil => intro st inv; exact inv
  | cons e rest ih =>
    intro st inv
    rw [List.foldl_cons]
    apply ih
    unfold applyFactorTile
    cases hfind : tiles.find? (fun u => u.id == e.id) with
    | none => exact inv
    | some adjacentTile =>
      dsimp only
      by_cases h1 : e.value / e.divisor = 1
      · rw [if_pos h1]
        exact inv.pushFresh (createCleanTile_id _ _ _ _)
      · rw [if_neg h1]
        exact inv.pushFresh (createCleanTile_id _ _ _ _)

theorem processTile_idInv (tiles : List Tile) (mult n : ℕ) (st : IterState) (t : Tile)
    (ht : t ∈ tiles) (hids : ∀ u ∈ tiles, u.id < n)
    (inv : IdInv tiles n st.result st.currentId) :
    IdInv tiles n (processTile tiles mult st t).result
      (processTile tiles mult st t).currentId := by
  by_cases hv : t.value = 0
  · unfold processTile
    rw [if_pos hv]
    exact inv.pushOld ht (hids t ht)
  by_cases hp : t.id ∈ st.processed
  · unfold processTile
    rw [if_neg hv, if_pos hp]
    exact inv
  unfold processTile
  rw [if_neg hv, if_neg hp]
  dsimp only
  split
  case _ assignment heq =>
    apply applyFactorTile_idInv
    dsimp only
    by_cases h1 : t.value / factorProduct assignment = 1 <;>
      [rw [centerReplacement, if_pos h1]; rw [centerReplacement, if_neg h1]] <;>
      exact inv.pushFresh (createCleanTile_id _ _ _ _)
  case _ heq =>
    split
    case _ a heq2 =>
      unfold applyEqualElimination
      dsimp only
      have step1 := inv.pushFresh (createCleanTile_id t st.currentId 0 (some t.value))
      have step2 := step1.pushFresh
        (createCleanTile_id a (st.currentId + 1) 0 (some a.value))
      rw [List.append_assoc] at step2
      exact step2
    case _ heq2 =>
      split
      case _ a heq3 =>
        unfold applyRegularMerge
        dsimp only
        have step1 := inv.pushFresh (createCleanTile_id t st.currentId 0 (some t.value))
        have hsnd : (if a.value / t.value = 1 then
            createCleanTile a (st.currentId + 1) 0 (some a.value)
          else createCleanTile a (st.currentId + 1) (a.value / t.value)
            (some a.value)).id = st.currentId + 1 := by
          by_cases h1 : a.value / t.value = 1
          · rw [if_pos h1, createCleanTile_id]
          · rw [if_neg h1, createCleanTile_id]
        have step2 := step1.pushFresh hsnd
        rw [List.append_assoc] at step2
        exact step2
      case _ heq3 =>
        exact inv.pushOld ht (hids t ht)

/-- C7: in a single pass with input counter `n` (all input ids below `n`),
the returned counter never falls below `n`, every output tile is either an
unchanged input tile (id below `n`, hence distinct from every new id) or a
merge replacement with a fresh id in `[n, returned counter)`, and those
fresh ids are pairwise distinct. -/
theorem C7_fresh_ids (tiles : List Tile) (n m : ℕ) (h : ∀ u ∈ tiles, u.id < n) :
    n ≤ (processSingleIteration tiles n m).nextTileId ∧
    (∀ t ∈ (processSingleIteration tiles n m).tiles,
      (t ∈ tiles ∧ t.id < n) ∨
      (n ≤ t.id ∧ t.id < (processSingleIteration tiles n m).nextTileId)) ∧
    (((processSingleIteration tiles n m).tiles.filter
      (fun t => decide (n ≤ t.id))).map Tile.id).Nodup := by
  have hfold : ∀ (l : List Tile) (st : IterState), (∀ u ∈ l, u ∈ tiles) →
      IdInv tiles n st.result st.currentId →
      IdInv tiles n (l.foldl (processTile tiles m) st).result
        (l.foldl (processTile tiles m) st).currentId := by
    intro l
    induction l with
    | nil => intro st _ inv; exact inv
    | cons t r ih =>
      intro st hmem inv
      rw [List.foldl_cons]
      exact ih _ (fun u hu => hmem u (List.mem_cons_of_mem _ hu))
        (processTile_idInv tiles m n st t (hmem t (List.mem_cons_self _ _)) h inv)
  have hinv0 : IdInv tiles n ([] : List Tile) n :=
    ⟨le_rfl, by simp, by simp, by simp⟩
  have hfin := hfold (List.insertionSort (fun a b => a.value ≤ b.value) tiles)
    ⟨[], [], false, 0, n⟩
    (fun u hu => (List.mem_insertionSort _).mp hu) hinv0
  obtain ⟨f1, f2, f3, f4⟩ := hfin
  refine ⟨f1, f2, ?_⟩
  exact f3.imp (fun hab => Nat.ne_of_lt hab)

/-- C7, witness: the board `[3 | 147]` with input counter 10: the merge
emits two fresh tiles with ids 10 and 11 and returns counter 12. -/
theorem C7_witness :
    10 ≤ (processSingleIteration [⟨1, 3, 0, 0, none⟩, ⟨2, 147, 0, 1, none⟩] 10 1).nextTileId ∧
    (∀ t ∈ (processSingleIteration [⟨1, 3, 0, 0, none⟩, ⟨2, 147, 0, 1, none⟩] 10 1).tiles,
      (t ∈ [⟨1, 3, 0, 0, none⟩, ⟨2, 147, 0, 1, none⟩] ∧ t.id < 10) ∨
      (10 ≤ t.id ∧ t.id < (processSingleIteration [⟨1, 3, 0, 0, none⟩,
        ⟨2, 147, 0, 1, none⟩] 10 1).nextTileId)) ∧
    (((processSingleIteration [⟨1, 3, 0, 0, none⟩, ⟨2, 147, 0, 1, none⟩] 10 1).tiles.filter
      (fun t => decide (10 ≤ t.id))).map Tile.id).Nodup :=
  C7_fresh_ids [⟨1, 3, 0, 0, none⟩, ⟨2, 147, 0, 1, none⟩] 10 1 (by decide)

end ClaimC7

section ClaimC5Infrastructure

/-- The cell a tile occupies. -/
def tilePos (t : Tile) : ℤ × ℤ := (t.row, t.col)

/-- The multiset of cells occupied by the tiles of a list. -/
def posList (l : List Tile) : Multiset (ℤ × ℤ) := ↑(l.map tilePos)

/-- The cells of the tiles whose id is not in the processed set. -/
def unprocessedPos (l : List Tile) (P : List ℕ) : Multiset (ℤ × ℤ) :=
  posList (l.filter (fun t => decide (t.id ∉ P)))

theorem posList_append (l1 l2 : List Tile) :
    posList (l1 ++ l2) = posList l1 + posList l2 := by
  unfold posList
  rw [List.map_append]
  rfl

theorem unprocessedPos_nil (P : List ℕ) : unprocessedPos [] P = 0 := rfl

theorem unprocessedPos_cons (t : Tile) (l : List Tile) (P : List ℕ) :
    unprocessedPos (t :: l) P =
      (if t.id ∉ P then {tilePos t} else 0) + unprocessedPos l P := by
  unfold unprocessedPos posList
  rw [List.filter_cons]
  by_cases h : t.id ∈ P
  · rw [if_neg (by simpa using h), if_neg (by simpa using h)]
    rw [zero_add]
  · rw [if_pos (by simpa using h), if_pos h]
    rw [List.map_cons, ← Multiset.cons_coe, Multiset.singleton_add]

theorem unprocessedPos_congr (l : List Tile) (P Q : List ℕ)
    (h : ∀ x ∈ l, (x.id ∈ P ↔ x.id ∈ Q)) :
    unprocessedPos l P = unprocessedPos l Q := by
  unfold unprocessedPos
  congr 1
  apply List.filter_congr
  intro x hx
  simp [h x hx]

/-- Removing one unprocessed tile `a` (present in `l`, whose ids are
distinct) from the live set: marking `a.id` — and possibly other ids absent
from `l` — processed removes exactly `a`'s cell. -/
theorem unprocessedPos_remove (l : List Tile) (P Q : List ℕ) (a : Tile)
    (hnd : (l.map Tile.id).Nodup) (ha : a ∈ l) (haP : a.id ∉ P) (haQ : a.id ∈ Q)
    (hPQ : ∀ x ∈ P, x ∈ Q)
    (hQP : ∀ x ∈ Q, x ∈ P ∨ x = a.id ∨ ∀ u ∈ l, u.id ≠ x) :
    unprocessedPos l P = tilePos a ::ₘ unprocessedPos l Q := by
  induction l with
  | nil => simp at ha
  | cons u r ih =>
    rw [List.map_cons, List.nodup_cons] at hnd
    rcases List.mem_cons.mp ha with rfl | har
    · rw [unprocessedPos_cons, unprocessedPos_cons, if_pos haP,
        if_neg (by simp [haQ])]
      have hfeq : unprocessedPos r P = unprocessedPos r Q := by
        apply unprocessedPos_congr
        intro x hx
        constructor
        · exact hPQ x.id
        · intro hxQ
          rcases hQP x.id hxQ with h | h | h
          · exact h
          · exact absurd (h ▸ List.mem_map_of_mem Tile.id hx) hnd.1
          · exact absurd rfl (h x (List.mem_cons_of_mem _ hx))
      rw [hfeq, Multiset.singleton_add, zero_add]
    · have hhead : (u.id ∈ P ↔ u.id ∈ Q) := by
        constructor
        · exact hPQ u.id
        · intro huQ
          rcases hQP u.id huQ with h | h | h
          · exact h
          · exact absurd (h ▸ List.mem_map_of_mem Tile.id har) hnd.1
          · exact absurd rfl (h u (List.mem_cons_self _ _))
      have ihr := ih hnd.2 har
        (fun x hx => (hQP x hx).imp id (Or.imp id
          (fun hh u hu => hh u (List.mem_cons_of_mem _ hu))))
      rw [unprocessedPos_cons, unprocessedPos_cons, ihr]
      by_cases hu : u.id ∈ P
      · rw [if_neg (by simpa using hu), if_neg (by simpa using hhead.mp hu)]
        rw [zero_add, zero_add]
      · rw [if_pos hu, if_pos (fun hq => hu (hhead.mpr hq))]
        rw [Multiset.singleton_add, Multiset.singleton_add, Multiset.cons_swap]

theorem find?_eq_some_of_unique {α : Type} {l : List α} {p : α → Bool} {a : α}
    (ha : a ∈ l) (hpa : p a = true) (huniq : ∀ x ∈ l, p x = true → x = a) :
    l.find? p = some a := by
  induction l with
  | nil => simp at ha
  | cons h r ih =>
    rw [List.find?_cons]
    by_cases hph : p h = true
    · rw [hph]
      rw [huniq h (List.mem_cons_self _ _) hph]
    · rw [Bool.eq_false_iff.mpr hph]
      have har : a ∈ r := by
        rcases List.mem_cons.mp ha with rfl | h'
        · exact absurd hpa hph
        · exact h'
      exact ih har (fun x hx hpx => huniq x (List.mem_cons_of_mem _ hx) hpx)

theorem tile_eq_of_pos_eq {tiles : List Tile}
    (hposnd : (tiles.map tilePos).Nodup) {u v : Tile}
    (hu : u ∈ tiles) (hv : v ∈ tiles) (huv : tilePos u = tilePos v) : u = v :=
  List.inj_on_of_nodup_map hposnd hu hv huv

theorem tile_eq_of_id_eq {tiles : List Tile}
    (hidnd : (tiles.map Tile.id).Nodup) {u v : Tile}
    (hu : u ∈ tiles) (hv : v ∈ tiles) (huv : u.id = v.id) : u = v :=
  List.inj_on_of_nodup_map hidnd hu hv huv

/-- With pairwise-distinct ids, the by-id lookup of the factorization inner
loop returns the tile itself. -/
theorem find?_id_eq {tiles : List Tile} (hidnd : (tiles.map Tile.id).Nodup)
    {s : Tile} (hs : s ∈ tiles) :
    tiles.find? (fun u => u.id == s.id) = some s := by
  apply find?_eq_some_of_unique hs (by simp)
  intro x hx hpx
  rw [beq_iff_eq] at hpx
  exact tile_eq_of_id_eq hidnd hx hs hpx

theorem mem_getAdjacentTiles_iff {tiles : List Tile}
    (hposnd : (tiles.map tilePos).Nodup) (t u : Tile) :
    u ∈ getAdjacentTiles t tiles ↔
      u ∈ tiles ∧ ∃ d ∈ directions, u.row = t.row + d.1 ∧ u.col = t.col + d.2 := by
  unfold getAdjacentTiles
  rw [List.mem_filterMap]
  constructor
  · rintro ⟨d, hd, hfind⟩
    have hpred := List.find?_some hfind
    simp only [Bool.and_eq_true, beq_iff_eq] at hpred
    exact ⟨List.mem_of_find?_eq_some hfind, d, hd, hpred.1, hpred.2⟩
  · rintro ⟨hu, d, hd, hrow, hcol⟩
    refine ⟨d, hd, ?_⟩
    apply find?_eq_some_of_unique hu (by simp [hrow, hcol])
    intro x hx hpx
    simp only [Bool.and_eq_true, beq_iff_eq] at hpx
    apply tile_eq_of_pos_eq hposnd hx hu
    unfold tilePos
    rw [hpx.1, hpx.2, hrow, hcol]

theorem getAdjacentTiles_symm {tiles : List Tile}
    (hposnd : (tiles.map tilePos).Nodup) {t s : Tile}
    (ht : t ∈ tiles) (hs : s ∈ getAdjacentTiles t tiles) :
    t ∈ getAdjacentTiles s tiles := by
  rw [mem_getAdjacentTiles_iff hposnd] at hs ⊢
  obtain ⟨hsmem, d, hd, hrow, hcol⟩ := hs
  refine ⟨ht, (-d.1, -d.2), ?_, by omega, by omega⟩
  simp only [directions, List.mem_cons, List.not_mem_nil, or_false] at hd
  rcases hd with rfl | rfl | rfl | rfl <;> simp [directions]

theorem ne_of_mem_getAdjacentTiles {tiles : List Tile} {t s : Tile}
    (hs : s ∈ getAdjacentTiles t tiles) : s ≠ t := by
  unfold getAdjacentTiles at hs
  rw [List.mem_filterMap] at hs
  obtain ⟨d, hd, hfind⟩ := hs
  have hpred := List.find?_some hfind
  simp only [Bool.and_eq_true, beq_iff_eq] at hpred
  intro hcontra
  subst hcontra
  simp only [directions, List.mem_cons, List.not_mem_nil, or_false] at hd
  rcases hd with rfl | rfl | rfl | rfl <;> simp only [] at hpred <;> omega

theorem mem_activeAdjacent_iff {tiles : List Tile} {P : List ℕ} {t a : Tile} :
    a ∈ activeAdjacent tiles P t ↔
      a ∈ getAdjacentTiles t tiles ∧ a.id ∉ P ∧ 0 < a.value := by
  unfold activeAdjacent
  rw [List.mem_filter]
  simp

/-- A visited tile that fired no merge has no live partner: no adjacent
unprocessed positive tile equals it in value or is properly divided by it.
Preserved as the processed set grows. -/
def NoLivePartnerAt (tiles : List Tile) (P : List ℕ) (u : Tile) : Prop :=
  ∀ a ∈ getAdjacentTiles u tiles, a.id ∉ P → 0 < a.value →
    u.value ≠ a.value ∧ ¬ (u.value ∣ a.value ∧ u.value ≠ a.value)

theorem NoLivePartnerAt.grow {tiles : List Tile} {P Q : List ℕ} {u : Tile}
    (h : NoLivePartnerAt tiles P u) (hPQ : ∀ x ∈ P, x ∈ Q) :
    NoLivePartnerAt tiles Q u :=
  fun a ha haQ hav => h a ha (fun haP => haQ (hPQ _ haP)) hav

end ClaimC5Infrastructure

section ClaimC5Invariant

theorem unprocessedPos_empty (l : List Tile) : unprocessedPos l [] = posList l := by
  unfold unprocessedPos
  congr 1
  simp

theorem createCleanTile_pos (s : Tile) (i v : ℕ) (sv : Option ℕ) :
    tilePos (createCleanTile s i v sv) = tilePos s := rfl

theorem centerReplacement_pos (t : Tile) (i v : ℕ) :
    tilePos (centerReplacement t i v) = tilePos t := by
  unfold centerReplacement
  by_cases h : v = 1
  · rw [if_pos h, createCleanTile_pos]
  · rw [if_neg h, createCleanTile_pos]

theorem centerReplacement_id (t : Tile) (i v : ℕ) :
    (centerReplacement t i v).id = i := by
  unfold centerReplacement
  by_cases h : v = 1
  · rw [if_pos h, createCleanTile_id]
  · rw [if_neg h, createCleanTile_id]

/-- The per-position `find?` calls of `getAdjacentTiles` target pairwise
distinct cells, so on a board with pairwise distinct tile cells and ids the
adjacent tiles carry pairwise distinct ids. -/
theorem getAdjacentTiles_ids_nodup {tiles : List Tile}
    (hidnd : (tiles.map Tile.id).Nodup)
    (t : Tile) : ((getAdjacentTiles t tiles).map Tile.id).Nodup := by
  have hkey : ∀ (d e : ℤ × ℤ), (t.row + d.1, t.col + d.2) ≠ (t.row + e.1, t.col + e.2) →
      ∀ u ∈ tiles.find? (fun o => o.row == t.row + d.1 && o.col == t.col + d.2),
      ∀ v ∈ tiles.find? (fun o => o.row == t.row + e.1 && o.col == t.col + e.2),
      u.id ≠ v.id := by
    intro d e hne u hu v hv hid
    rw [Option.mem_def] at hu hv
    have hu' := List.find?_some hu
    have hv' := List.find?_some hv
    simp only [Bool.and_eq_true, beq_iff_eq] at hu' hv'
    have hueq : u = v :=
      tile_eq_of_id_eq hidnd (List.mem_of_find?_eq_some hu)
        (List.mem_of_find?_eq_some hv) hid
    subst hueq
    apply hne
    rw [Prod.mk.injEq]
    exact ⟨hu'.1 ▸ hv'.1 ▸ rfl, hu'.2 ▸ hv'.2 ▸ rfl⟩
  have hpw : List.Pairwise (fun u v : Tile => u.id ≠ v.id) (getAdjacentTiles t tiles) := by
    unfold getAdjacentTiles
    rw [List.pairwise_filterMap]
    rw [directions]
    rw [List.pairwise_cons, List.pairwise_cons, List.pairwise_cons, List.pairwise_cons]
    refine ⟨?_, ?_, ?_, ?_, List.Pairwise.nil⟩
    · intro d' hd'
      simp only [List.mem_cons, List.not_mem_nil, or_false] at hd'
      rcases hd' with rfl | rfl | rfl <;>
        exact hkey _ _ (by intro hc; rw [Prod.mk.injEq] at hc; omega)
    · intro d' hd'
      simp only [List.mem_cons, List.not_mem_nil, or_false] at hd'
      rcases hd' with rfl | rfl <;>
        exact hkey _ _ (by intro hc; rw [Prod.mk.injEq] at hc; omega)
    · intro d' hd'
      simp only [List.mem_cons, List.not_mem_nil, or_false] at hd'
      subst hd'
      exact hkey _ _ (by intro hc; rw [Prod.mk.injEq] at hc; omega)
    · intro d' hd'
      exact absurd hd' (List.not_mem_nil _)
  exact List.pairwise_map.mpr (List.pairwise_map.mp (List.Pairwise.map Tile.id
    (fun a b h => h) hpw))

/-- Combined loop invariant for the well-formed-board analysis of a single
pass: `tiles` is the input board, `sortedTiles` its ascending traversal,
`n` the incoming id counter, `l` the tiles still to visit and `st` the loop
state.  It tracks (i) distinctness of the ids of retained input tiles and
that no still-unvisited tile was already emitted, (ii) that processed ids
belong to positive input tiles, (iii) that every visited-but-unprocessed
positive tile is partner-free and no heavier than any unvisited tile,
(iv) that the emitted cells plus the cells of unvisited unprocessed tiles
are exactly the board's cells, and (v) the counter bound separating input
ids from fresh ids. -/
structure C5Inv (tiles sortedTiles : List Tile) (n : ℕ) (l : List Tile)
    (st : IterState) : Prop where
  oldNodup : ((st.result.filter (fun t => decide (t.id < n))).map Tile.id).Nodup
  oldFresh : ∀ u ∈ l, u.id ∉ (st.result.filter (fun t => decide (t.id < n))).map Tile.id
  procPos : ∀ x ∈ st.processed, ∃ u, u ∈ tiles ∧ u.id = x ∧ 0 < u.value
  nm : ∀ u ∈ tiles, 0 < u.value → u.id ∉ st.processed →
    u ∈ l ∨ (NoLivePartnerAt tiles st.processed u ∧ ∀ w ∈ l, u.value ≤ w.value)
  posEq : posList st.result + unprocessedPos l st.processed = posList sortedTiles
  curGe : n ≤ st.currentId

section C5Step

variable {tiles sortedTiles : List Tile} {n : ℕ}

theorem suffix_ids_nodup (hidnd : (tiles.map Tile.id).Nodup)
    (hperm : sortedTiles.Perm tiles) {l : List Tile} (hsuf : l <:+ sortedTiles) :
    (l.map Tile.id).Nodup :=
  ((hperm.map Tile.id).nodup_iff.mpr hidnd).sublist ((hsuf.sublist).map Tile.id)

theorem tid_not_processed {st : IterState} {t : Tile}
    (hidnd : (tiles.map Tile.id).Nodup) (htmem : t ∈ tiles) (hv : t.value = 0)
    (hproc : ∀ x ∈ st.processed, ∃ u, u ∈ tiles ∧ u.id = x ∧ 0 < u.value) :
    t.id ∉ st.processed := by
  intro hmem
  obtain ⟨u, humem, huid, hupos⟩ := hproc t.id hmem
  have := tile_eq_of_id_eq hidnd humem htmem huid
  subst this
  omega

/-- Pushing the visited tile through unchanged (value-0 case and retain
case) preserves the invariant. -/
theorem c5_push_self {st : IterState} {t : Tile} {r : List Tile}
    (hidnd : (tiles.map Tile.id).Nodup) (hidlt : ∀ u ∈ tiles, u.id < n)
    (hperm : sortedTiles.Perm tiles)
    (hsuf : (t :: r) <:+ sortedTiles)
    (htP : t.id ∉ st.processed)
    (hnlp : 0 < t.value →
      NoLivePartnerAt tiles st.processed t ∧ ∀ w ∈ r, t.value ≤ w.value)
    (inv : C5Inv tiles sortedTiles n (t :: r) st) :
    C5Inv tiles sortedTiles n r { st with result := st.result ++ [t] } := by
  have htsort : t ∈ sortedTiles := hsuf.sublist.subset (List.mem_cons_self _ _)
  have htmem : t ∈ tiles := hperm.mem_iff.mp htsort
  have htid : t.id < n := hidlt t htmem
  have hsnd := suffix_ids_nodup hidnd hperm hsuf
  rw [List.map_cons, List.nodup_cons] at hsnd
  have hfilter : (st.result ++ [t]).filter (fun u => decide (u.id < n)) =
      st.result.filter (fun u => decide (u.id < n)) ++ [t] := by
    rw [List.filter_append]
    simp [List.filter_cons, htid]
  refine ⟨?_, ?_, inv.procPos, ?_, ?_, inv.curGe⟩
  · rw [hfilter, List.map_append]
    rw [List.nodup_append]
    refine ⟨inv.oldNodup, by simp, ?_⟩
    intro x hx hxmem
    rw [List.map_cons, List.map_nil, List.mem_singleton] at hxmem
    subst hxmem
    exact inv.oldFresh t (List.mem_cons_self _ _) hx
  · intro u hu
    rw [hfilter, List.map_append, List.mem_append]
    rintro (h | h)
    · exact inv.oldFresh u (List.mem_cons_of_mem _ hu) h
    · rw [List.map_cons, List.map_nil, List.mem_singleton] at h
      exact hsnd.1 (h ▸ List.mem_map_of_mem Tile.id hu)
  · intro u humem hupos huP
    rcases inv.nm u humem hupos huP with h | h
    · rcases List.mem_cons.mp h with rfl | h'
      · exact Or.inr (hnlp hupos)
      · exact Or.inl h'
    · exact Or.inr ⟨h.1, fun w hw => h.2 w (List.mem_cons_of_mem _ hw)⟩
  · rw [posList_append, ← inv.posEq, unprocessedPos_cons, if_pos htP]
    have hone : posList [t] = {tilePos t} := rfl
    rw [hone, add_assoc]

/-- Skipping an already-processed tile preserves the invariant. -/
theorem c5_skip {st : IterState} {t : Tile} {r : List Tile}
    (htP : t.id ∈ st.processed)
    (inv : C5Inv tiles sortedTiles n (t :: r) st) :
    C5Inv tiles sortedTiles n r st := by
  refine ⟨inv.oldNodup, ?_, inv.procPos, ?_, ?_, inv.curGe⟩
  · exact fun u hu => inv.oldFresh u (List.mem_cons_of_mem _ hu)
  · intro u humem hupos huP
    rcases inv.nm u humem hupos huP with h | h
    · rcases List.mem_cons.mp h with rfl | h'
      · exact absurd htP huP
      · exact Or.inl h'
    · exact Or.inr ⟨h.1, fun w hw => h.2 w (List.mem_cons_of_mem _ hw)⟩
  · rw [← inv.posEq, unprocessedPos_cons, if_neg (by simpa using htP), zero_add]

/-- Accounting for the inner loop of the factorization branch: every
assignment entry looks up its (unique, positive, still-unvisited) tile,
marks it processed and re-emits its cell under a fresh id, so the emitted
cells plus the still-live cells of the unvisited suffix `r` are conserved,
processed ids remain ids of positive input tiles, the counter only grows,
and the emitted tiles with old ids are untouched. -/
theorem c5_applyFold {r : List Tile} (mult : ℕ)
    (hidnd : (tiles.map Tile.id).Nodup)
    (hrnd : (r.map Tile.id).Nodup) :
    ∀ (asg : List FactorAssign) (st : IterState),
      (∀ e ∈ asg, ∃ s, s ∈ r ∧ s ∈ tiles ∧ 0 < s.value ∧ s.id = e.id ∧
        s.id ∉ st.processed) →
      (asg.map FactorAssign.id).Nodup →
      n ≤ st.currentId →
      (posList (asg.foldl (applyFactorTile tiles mult) st).result +
          unprocessedPos r (asg.foldl (applyFactorTile tiles mult) st).processed =
        posList st.result + unprocessedPos r st.processed) ∧
      (∀ x ∈ st.processed, x ∈ (asg.foldl (applyFactorTile tiles mult) st).processed) ∧
      (∀ x ∈ (asg.foldl (applyFactorTile tiles mult) st).processed,
        x ∈ st.processed ∨ ∃ u, u ∈ tiles ∧ u.id = x ∧ 0 < u.value) ∧
      ((asg.foldl (applyFactorTile tiles mult) st).result.filter
          (fun u => decide (u.id < n)) =
        st.result.filter (fun u => decide (u.id < n))) ∧
      n ≤ (asg.foldl (applyFactorTile tiles mult) st).currentId := by
  intro asg
  induction asg with
  | nil =>
    intro st _ _ hcur
    exact ⟨rfl, fun x hx => hx, fun x hx => Or.inl hx, rfl, hcur⟩
  | cons e rest ih =>
    intro st hset hdist hcur
    rw [List.foldl_cons]
    obtain ⟨s, hsr, hstiles, hspos, hsid, hsP⟩ := hset e (List.mem_cons_self _ _)
    have hfind : tiles.find? (fun u => u.id == e.id) = some s := by
      rw [← hsid]
      exact find?_id_eq hidnd hstiles
    have hstep : applyFactorTile tiles mult st e =
        { st with
          processed := s.id :: st.processed
          score := st.score + e.value * mult
          result := st.result ++
            [if e.value / e.divisor = 1 then
              createCleanTile s st.currentId 0 (some s.value)
             else createCleanTile s st.currentId (e.value / e.divisor) none]
          currentId := st.currentId + 1 } := by
      unfold applyFactorTile
      rw [hfind]
    rw [hstep]
    rw [List.map_cons, List.nodup_cons] at hdist
    have hrest : ∀ e' ∈ rest, ∃ s', s' ∈ r ∧ s' ∈ tiles ∧ 0 < s'.value ∧
        s'.id = e'.id ∧ s'.id ∉ s.id :: st.processed := by
      intro e' he'
      obtain ⟨s', h1, h2, h3, h4, h5⟩ := hset e' (List.mem_cons_of_mem _ he')
      refine ⟨s', h1, h2, h3, h4, ?_⟩
      intro hmem
      rcases List.mem_cons.mp hmem with heq | hmem'
      · have : e'.id = e.id := by rw [← h4, heq, hsid]
        exact hdist.1 (this ▸ List.mem_map_of_mem FactorAssign.id he')
      · exact h5 hmem'
    obtain ⟨ihpos, ihgrow, ihchar, ihfilter, ihcur⟩ :=
      ih { st with
          processed := s.id :: st.processed
          score := st.score + e.value * mult
          result := st.result ++
            [if e.value / e.divisor = 1 then
              createCleanTile s st.currentId 0 (some s.value)
             else createCleanTile s st.currentId (e.value / e.divisor) none]
          currentId := st.currentId + 1 }
        hrest hdist.2 (by show n ≤ st.currentId + 1; omega)
    have hnewpos : tilePos (if e.value / e.divisor = 1 then
        createCleanTile s st.currentId 0 (some s.value)
       else createCleanTile s st.currentId (e.value / e.divisor) none) = tilePos s := by
      by_cases h1 : e.value / e.divisor = 1
      · rw [if_pos h1, createCleanTile_pos]
      · rw [if_neg h1, createCleanTile_pos]
    have hnewid : (if e.value / e.divisor = 1 then
        createCleanTile s st.currentId 0 (some s.value)
       else createCleanTile s st.currentId (e.value / e.divisor) none).id =
        st.currentId := by
      by_cases h1 : e.value / e.divisor = 1
      · rw [if_pos h1, createCleanTile_id]
      · rw [if_neg h1, createCleanTile_id]
    have hremove : unprocessedPos r st.processed =
        tilePos s ::ₘ unprocessedPos r (s.id :: st.processed) := by
      apply unprocessedPos_remove r st.processed (s.id :: st.processed) s hrnd hsr hsP
        (List.mem_cons_self _ _) (fun x hx => List.mem_cons_of_mem _ hx)
      intro x hx
      rcases List.mem_cons.mp hx with h | h
      · exact Or.inr (Or.inl h)
      · exact Or.inl h
    refine ⟨?_, ?_, ?_, ?_, ihcur⟩
    · rw [ihpos]
      dsimp only
      rw [posList_append, hremove]
      have hone : posList [if e.value / e.divisor = 1 then
          createCleanTile s st.currentId 0 (some s.value)
         else createCleanTile s st.currentId (e.value / e.divisor) none] =
          {tilePos s} := by
        unfold posList
        rw [List.map_cons, List.map_nil, hnewpos]
        rfl
      rw [hone]
      rw [add_assoc, Multiset.singleton_add]
    · intro x hx
      exact ihgrow x (by dsimp only; exact List.mem_cons_of_mem _ hx)
    · intro x hx
      rcases ihchar x hx with h | h
      · dsimp only at h
        rcases List.mem_cons.mp h with heq | hmem'
        · exact Or.inr ⟨s, hstiles, heq.symm, hspos⟩
        · exact Or.inl hmem'
      · exact Or.inr h
    · rw [ihfilter]
      dsimp only
      rw [List.filter_append]
      have hnot : ¬ (if e.value / e.divisor = 1 then
          createCleanTile s st.currentId 0 (some s.value)
         else createCleanTile s st.currentId (e.value / e.divisor) none).id < n := by
        rw [hnewid]
        omega
      simp [List.filter_cons, hnot]

/-- A live merge partner of the currently visited tile is still unvisited:
a visited-but-unprocessed tile cannot equal the visited tile in value or
divide it (it retained with no live partner, and the visited tile was a
live partner at that moment), and it cannot be properly divided by the
visited tile (the ascending traversal makes earlier tiles no heavier). -/
theorem c5_partner_in_r {st : IterState} {t a : Tile} {r : List Tile}
    (hidnd : (tiles.map Tile.id).Nodup) (hposnd : (tiles.map tilePos).Nodup)
    (hperm : sortedTiles.Perm tiles)
    (hsuf : (t :: r) <:+ sortedTiles)
    (htP : t.id ∉ st.processed) (hv : t.value ≠ 0)
    (hnm : ∀ u ∈ tiles, 0 < u.value → u.id ∉ st.processed →
      u ∈ t :: r ∨ (NoLivePartnerAt tiles st.processed u ∧
        ∀ w ∈ t :: r, u.value ≤ w.value))
    (ha : a ∈ activeAdjacent tiles st.processed t)
    (hcond : t.value = a.value ∨ a.value ∣ t.value ∨
      (t.value ∣ a.value ∧ t.value ≠ a.value)) :
    a ∈ r := by
  obtain ⟨hadj, haP, hapos⟩ := mem_activeAdjacent_iff.mp ha
  have hamem : a ∈ tiles := getAdjacentTiles_subset hadj
  have htmem : t ∈ tiles :=
    hperm.mem_iff.mp (hsuf.sublist.subset (List.mem_cons_self _ _))
  rcases hnm a hamem hapos haP with hmem | ⟨hnlp, hbound⟩
  · rcases List.mem_cons.mp hmem with rfl | h
    · exact absurd rfl (ne_of_mem_getAdjacentTiles hadj)
    · exact h
  · exfalso
    have htadj : t ∈ getAdjacentTiles a tiles := getAdjacentTiles_symm hposnd htmem hadj
    obtain ⟨hne, hndvd⟩ := hnlp t htadj htP (by omega)
    have hbt : a.value ≤ t.value := hbound t (List.mem_cons_self _ _)
    rcases hcond with hc | hc | hc
    · exact hne hc.symm
    · by_cases heq : a.value = t.value
      · exact hne heq
      · exact hndvd ⟨hc, heq⟩
    · have := Nat.le_of_dvd hapos hc.1
      omega

/-- The main preservation lemma: one turn of the loop of
`processSingleIteration` carries the combined invariant from the suffix
`t :: r` to `r`, whichever branch fires. -/
theorem c5_step (mult : ℕ)
    (hidnd : (tiles.map Tile.id).Nodup) (hposnd : (tiles.map tilePos).Nodup)
    (hidlt : ∀ u ∈ tiles, u.id < n)
    (hperm : sortedTiles.Perm tiles)
    (hsorted : List.Pairwise (fun a b : Tile => a.value ≤ b.value) sortedTiles)
    {t : Tile} {r : List Tile} {st : IterState}
    (hsuf : (t :: r) <:+ sortedTiles)
    (inv : C5Inv tiles sortedTiles n (t :: r) st) :
    C5Inv tiles sortedTiles n r (processTile tiles mult st t) := by
  have htsort : t ∈ sortedTiles := hsuf.sublist.subset (List.mem_cons_self _ _)
  have htmem : t ∈ tiles := hperm.mem_iff.mp htsort
  by_cases hv : t.value = 0
  · have htP : t.id ∉ st.processed := tid_not_processed hidnd htmem hv inv.procPos
    unfold processTile
    rw [if_pos hv]
    exact c5_push_self hidnd hidlt hperm hsuf htP (fun hpos => absurd hv (by omega)) inv
  by_cases hp : t.id ∈ st.processed
  · unfold processTile
    rw [if_neg hv, if_pos hp]
    exact c5_skip hp inv
  have hrnd : (r.map Tile.id).Nodup ∧ t.id ∉ r.map Tile.id := by
    have h := suffix_ids_nodup hidnd hperm hsuf
    rw [List.map_cons, List.nodup_cons] at h
    exact ⟨h.2, h.1⟩
  have hupr : unprocessedPos r (t.id :: st.processed) = unprocessedPos r st.processed := by
    apply unprocessedPos_congr
    intro x hx
    constructor
    · intro hxm
      rcases List.mem_cons.mp hxm with hq | hq
      · exact absurd (hq ▸ List.mem_map_of_mem Tile.id hx) hrnd.2
      · exact hq
    · exact fun hxm => List.mem_cons_of_mem _ hxm
  have hposinv : posList sortedTiles =
      posList st.result + ({tilePos t} + unprocessedPos r st.processed) := by
    rw [← inv.posEq, unprocessedPos_cons, if_pos hp]
  unfold processTile
  rw [if_neg hv, if_neg hp]
  dsimp only
  split
  case _ assignment heq =>
    -- STEP 1: multi-tile factorization fired
    have hcm : checkMultiTileFactorization t.value
        ((factorCandidates (activeAdjacent tiles st.processed t) t).map
          (fun s => ⟨s.value, s.id⟩)) = some assignment := by
      by_cases hc : 2 ≤ (factorCandidates (activeAdjacent tiles st.processed t) t).length
      · rw [if_pos hc] at heq
        exact heq
      · rw [if_neg hc] at heq
        exact absurd heq (by simp)
    obtain ⟨-, -, -, -, hentries, hnodtrans⟩ := checkMultiTileFactorization_sound hcm
    have hcands_nodup : ((((factorCandidates (activeAdjacent tiles st.processed t) t)).map
        (fun s => (⟨s.value, s.id⟩ : FactorCand))).map FactorCand.id).Nodup := by
      rw [List.map_map]
      have hcomp : (FactorCand.id ∘ fun s : Tile => (⟨s.value, s.id⟩ : FactorCand)) =
          Tile.id := rfl
      rw [hcomp]
      apply (getAdjacentTiles_ids_nodup hidnd t).sublist
      apply List.Sublist.map
      exact (List.filter_sublist _).trans (List.filter_sublist _)
    have hasg_nodup : (assignment.map FactorAssign.id).Nodup := hnodtrans hcands_nodup
    have hset : ∀ e ∈ assignment, ∃ s, s ∈ r ∧ s ∈ tiles ∧ 0 < s.value ∧
        s.id = e.id ∧ s.id ∉ t.id :: st.processed := by
      intro e he
      obtain ⟨-, -, c, hcmem, heid, -⟩ := hentries e he
      rw [List.mem_map] at hcmem
      obtain ⟨s, hsmem, rfl⟩ := hcmem
      obtain ⟨hsA, hsv0, hsdvd⟩ := mem_factorCandidates hsmem
      obtain ⟨hsadj, hsP, hspos⟩ := mem_activeAdjacent_iff.mp hsA
      have hsmemT : s ∈ tiles := getAdjacentTiles_subset hsadj
      have hsr : s ∈ r := c5_partner_in_r hidnd hposnd hperm hsuf hp hv inv.nm hsA
        (Or.inr (Or.inl hsdvd))
      refine ⟨s, hsr, hsmemT, hspos, heid.symm, ?_⟩
      intro hmem
      rcases List.mem_cons.mp hmem with hq | hq
      · exact (ne_of_mem_getAdjacentTiles hsadj) (tile_eq_of_id_eq hidnd hsmemT htmem hq)
      · exact hsP hq
    unfold applyFactorization
    obtain ⟨ihpos, ihgrow, ihchar, ihfilter, ihcur⟩ :=
      c5_applyFold mult hidnd hrnd.1 assignment
        { st with
          changed := true
          processed := t.id :: st.processed
          score := st.score + t.value * mult
          result := st.result ++
            [centerReplacement t st.currentId (t.value / factorProduct assignment)]
          currentId := st.currentId + 1 }
        hset hasg_nodup (by show n ≤ st.currentId + 1; have := inv.curGe; omega)
    have hfe : (st.result ++
        [centerReplacement t st.currentId (t.value / factorProduct assignment)]).filter
          (fun u => decide (u.id < n)) =
        st.result.filter (fun u => decide (u.id < n)) := by
      rw [List.filter_append]
      have hnot : ¬ (centerReplacement t st.currentId
          (t.value / factorProduct assignment)).id < n := by
        rw [centerReplacement_id]
        have := inv.curGe
        omega
      simp [List.filter_cons, hnot]
    refine ⟨?_, ?_, ?_, ?_, ?_, ihcur⟩
    · rw [ihfilter]
      dsimp only
      rw [hfe]
      exact inv.oldNodup
    · intro u hu
      rw [ihfilter]
      dsimp only
      rw [hfe]
      exact inv.oldFresh u (List.mem_cons_of_mem _ hu)
    · intro x hx
      rcases ihchar x hx with hq | hq
      · dsimp only at hq
        rcases List.mem_cons.mp hq with hq' | hq'
        · exact ⟨t, htmem, hq'.symm, by omega⟩
        · exact inv.procPos x hq'
      · exact hq
    · intro u humem hupos huP
      have huP0 : u.id ∉ st.processed := fun hq =>
        huP (ihgrow u.id (by dsimp only; exact List.mem_cons_of_mem _ hq))
      have hut : u.id ≠ t.id := fun hq =>
        huP (ihgrow u.id (by dsimp only; exact hq ▸ List.mem_cons_self _ _))
      rcases inv.nm u humem hupos huP0 with hmem | ⟨hnlp, hbound⟩
      · rcases List.mem_cons.mp hmem with rfl | hq
        · exact absurd rfl hut
        · exact Or.inl hq
      · refine Or.inr ⟨hnlp.grow ?_, fun w hw => hbound w (List.mem_cons_of_mem _ hw)⟩
        intro x hx
        exact ihgrow x (by dsimp only; exact List.mem_cons_of_mem _ hx)
    · rw [ihpos]
      dsimp only
      rw [posList_append, hupr, hposinv]
      have hone : posList [centerReplacement t st.currentId
          (t.value / factorProduct assignment)] = {tilePos t} := by
        unfold posList
        rw [List.map_cons, List.map_nil, centerReplacement_pos]
        rfl
      rw [hone, add_assoc]
  case _ heq =>
    split
    case _ a heq2 =>
      -- STEP 2: equal-value elimination fired
      have hveq : t.value = a.value := by
        have hpred := List.find?_some heq2
        unfold checkEqualValueElimination at hpred
        exact beq_iff_eq.mp hpred
      have haA : a ∈ activeAdjacent tiles st.processed t :=
        List.mem_of_find?_eq_some heq2
      obtain ⟨hadj, haP, hapos⟩ := mem_activeAdjacent_iff.mp haA
      have hamem : a ∈ tiles := getAdjacentTiles_subset hadj
      have har : a ∈ r := c5_partner_in_r hidnd hposnd hperm hsuf hp hv inv.nm haA
        (Or.inl hveq)
      have haid : a.id ∈ r.map Tile.id := List.mem_map_of_mem Tile.id har
      have hremove : unprocessedPos r st.processed =
          tilePos a ::ₘ unprocessedPos r (a.id :: t.id :: st.processed) := by
        apply unprocessedPos_remove r st.processed (a.id :: t.id :: st.processed) a
          hrnd.1 har haP (List.mem_cons_self _ _)
          (fun x hx => List.mem_cons_of_mem _ (List.mem_cons_of_mem _ hx))
        intro x hx
        rcases List.mem_cons.mp hx with hq | hx
        · exact Or.inr (Or.inl hq)
        rcases List.mem_cons.mp hx with hq | hx
        · refine Or.inr (Or.inr ?_)
          intro u hu hcontra
          exact hrnd.2 (hq ▸ hcontra ▸ List.mem_map_of_mem Tile.id hu)
        · exact Or.inl hx
      unfold applyEqualElimination
      have hfe : (st.result ++
          [createCleanTile t st.currentId 0 (some t.value),
           createCleanTile a (st.currentId + 1) 0 (some a.value)]).filter
            (fun u => decide (u.id < n)) =
          st.result.filter (fun u => decide (u.id < n)) := by
        rw [List.filter_append]
        have h1 : ¬ (createCleanTile t st.currentId 0 (some t.value)).id < n := by
          rw [createCleanTile_id]
          have := inv.curGe
          omega
        have h2 : ¬ (createCleanTile a (st.currentId + 1) 0 (some a.value)).id < n := by
          rw [createCleanTile_id]
          have := inv.curGe
          omega
        simp [List.filter_cons, h1, h2]
      refine ⟨?_, ?_, ?_, ?_, ?_, ?_⟩
      · rw [hfe]
        exact inv.oldNodup
      · intro u hu
        rw [hfe]
        exact inv.oldFresh u (List.mem_cons_of_mem _ hu)
      · intro x hx
        rcases List.mem_cons.mp hx with hq | hx
        · exact ⟨a, hamem, hq.symm, hapos⟩
        rcases List.mem_cons.mp hx with hq | hx
        · exact ⟨t, htmem, hq.symm, by omega⟩
        · exact inv.procPos x hx
      · intro u humem hupos huP
        have huP0 : u.id ∉ st.processed := fun hq =>
          huP (List.mem_cons_of_mem _ (List.mem_cons_of_mem _ hq))
        have hut : u.id ≠ t.id := fun hq =>
          huP (List.mem_cons_of_mem _ (hq ▸ List.mem_cons_self _ _))
        rcases inv.nm u humem hupos huP0 with hmem | ⟨hnlp, hbound⟩
        · rcases List.mem_cons.mp hmem with rfl | hq
          · exact absurd rfl hut
          · exact Or.inl hq
        · refine Or.inr ⟨hnlp.grow ?_, fun w hw => hbound w (List.mem_cons_of_mem _ hw)⟩
          exact fun x hx => List.mem_cons_of_mem _ (List.mem_cons_of_mem _ hx)
      · dsimp only
        have htwo : posList [createCleanTile t st.currentId 0 (some t.value),
            createCleanTile a (st.currentId + 1) 0 (some a.value)] =
            tilePos t ::ₘ {tilePos a} := by
          unfold posList
          rw [List.map_cons, List.map_cons, List.map_nil,
            createCleanTile_pos, createCleanTile_pos]
          rfl
        rw [posList_append, hposinv, hremove, htwo,
          ← Multiset.singleton_add, ← Multiset.singleton_add]
        abel
      · show n ≤ st.currentId + 2
        have := inv.curGe
        omega
    case _ heq2 =>
      split
      case _ a heq3 =>
        -- STEP 3: regular divisor merge fired
        have hpred := List.find?_some heq3
        simp only [Bool.and_eq_true, decide_eq_true_eq] at hpred
        obtain ⟨⟨haP, hne⟩, hdvdb⟩ := hpred
        rw [isDivisor_natCast_iff] at hdvdb
        have haA : a ∈ activeAdjacent tiles st.processed t :=
          (List.mem_insertionSort _).mp (List.mem_of_find?_eq_some heq3)
        obtain ⟨hadj, -, hapos⟩ := mem_activeAdjacent_iff.mp haA
        have hamem : a ∈ tiles := getAdjacentTiles_subset hadj
        have har : a ∈ r := c5_partner_in_r hidnd hposnd hperm hsuf hp hv inv.nm haA
          (Or.inr (Or.inr ⟨hdvdb.2, hne⟩))
        have hremove : unprocessedPos r st.processed =
            tilePos a ::ₘ unprocessedPos r (a.id :: t.id :: st.processed) := by
          apply unprocessedPos_remove r st.processed (a.id :: t.id :: st.processed) a
            hrnd.1 har haP (List.mem_cons_self _ _)
            (fun x hx => List.mem_cons_of_mem _ (List.mem_cons_of_mem _ hx))
          intro x hx
          rcases List.mem_cons.mp hx with hq | hx
          · exact Or.inr (Or.inl hq)
          rcases List.mem_cons.mp hx with hq | hx
          · refine Or.inr (Or.inr ?_)
            intro u hu hcontra
            exact hrnd.2 (hq ▸ hcontra ▸ List.mem_map_of_mem Tile.id hu)
          · exact Or.inl hx
        unfold applyRegularMerge
        dsimp only
        have hsndpos : tilePos (if a.value / t.value = 1 then
            createCleanTile a (st.currentId + 1) 0 (some a.value)
          else createCleanTile a (st.currentId + 1) (a.value / t.value)
            (some a.value)) = tilePos a := by
          by_cases h1 : a.value / t.value = 1
          · rw [if_pos h1, createCleanTile_pos]
          · rw [if_neg h1, createCleanTile_pos]
        have hsndid : (if a.value / t.value = 1 then
            createCleanTile a (st.currentId + 1) 0 (some a.value)
          else createCleanTile a (st.currentId + 1) (a.value / t.value)
            (some a.value)).id = st.currentId + 1 := by
          by_cases h1 : a.value / t.value = 1
          · rw [if_pos h1, createCleanTile_id]
          · rw [if_neg h1, createCleanTile_id]
        have hfe : (st.result ++
            [createCleanTile t st.currentId 0 (some t.value),
             if a.value / t.value = 1 then
               createCleanTile a (st.currentId + 1) 0 (some a.value)
             else createCleanTile a (st.currentId + 1) (a.value / t.value)
               (some a.value)]).filter (fun u => decide (u.id < n)) =
            st.result.filter (fun u => decide (u.id < n)) := by
          rw [List.filter_append]
          have h1 : ¬ (createCleanTile t st.currentId 0 (some t.value)).id < n := by
            rw [createCleanTile_id]
            have := inv.curGe
            omega
          have h2 : ¬ (if a.value / t.value = 1 then
              createCleanTile a (st.currentId + 1) 0 (some a.value)
            else createCleanTile a (st.currentId + 1) (a.value / t.value)
              (some a.value)).id < n := by
            rw [hsndid]
            have := inv.curGe
            omega
          simp [List.filter_cons, h1, h2]
        refine ⟨?_, ?_, ?_, ?_, ?_, ?_⟩
        · rw [hfe]
          exact inv.oldNodup
        · intro u hu
          rw [hfe]
          exact inv.oldFresh u (List.mem_cons_of_mem _ hu)
        · intro x hx
          rcases List.mem_cons.mp hx with hq | hx
          · exact ⟨a, hamem, hq.symm, hapos⟩
          rcases List.mem_cons.mp hx with hq | hx
          · exact ⟨t, htmem, hq.symm, by omega⟩
          · exact inv.procPos x hx
        · intro u humem hupos huP
          have huP0 : u.id ∉ st.processed := fun hq =>
            huP (List.mem_cons_of_mem _ (List.mem_cons_of_mem _ hq))
          have hut : u.id ≠ t.id := fun hq =>
            huP (List.mem_cons_of_mem _ (hq ▸ List.mem_cons_self _ _))
          rcases inv.nm u humem hupos huP0 with hmem | ⟨hnlp, hbound⟩
          · rcases List.mem_cons.mp hmem with rfl | hq
            · exact absurd rfl hut
            · exact Or.inl hq
          · refine Or.inr ⟨hnlp.grow ?_, fun w hw => hbound w (List.mem_cons_of_mem _ hw)⟩
            exact fun x hx => List.mem_cons_of_mem _ (List.mem_cons_of_mem _ hx)
        · have htwo : posList [createCleanTile t st.currentId 0 (some t.value),
              if a.value / t.value = 1 then
                createCleanTile a (st.currentId + 1) 0 (some a.value)
              else createCleanTile a (st.currentId + 1) (a.value / t.value)
                (some a.value)] = tilePos t ::ₘ {tilePos a} := by
            unfold posList
            rw [List.map_cons, List.map_cons, List.map_nil,
              createCleanTile_pos, hsndpos]
            rfl
          rw [posList_append, hposinv, hremove, htwo,
            ← Multiset.singleton_add, ← Multiset.singleton_add]
          abel
        · show n ≤ st.currentId + 2
          have := inv.curGe
          omega
      case _ heq3 =>
        -- retain: no step fired, the tile has no live partner
        have hnlp : NoLivePartnerAt tiles st.processed t := by
          intro b hbadj hbP hbpos
          have hbA : b ∈ activeAdjacent tiles st.processed t :=
            mem_activeAdjacent_iff.mpr ⟨hbadj, hbP, hbpos⟩
          have hne : t.value ≠ b.value := by
            have hq := List.find?_eq_none.mp heq2 b hbA
            unfold checkEqualValueElimination at hq
            simpa using hq
          refine ⟨hne, ?_⟩
          rintro ⟨hdvd, -⟩
          have hq := List.find?_eq_none.mp heq3 b ((List.mem_insertionSort _).mpr hbA)
          apply hq
          simp only [Bool.and_eq_true, decide_eq_true_eq]
          exact ⟨⟨hbP, hne⟩, isDivisor_natCast_iff _ _ |>.mpr ⟨hv, hdvd⟩⟩
        have hbound : ∀ w ∈ r, t.value ≤ w.value :=
          fun w hw => List.rel_of_pairwise_cons (hsorted.sublist hsuf.sublist) hw
        exact c5_push_self hidnd hidlt hperm hsuf hp (fun _ => ⟨hnlp, hbound⟩) inv

/-- The invariant carried along the whole traversal. -/
theorem c5_fold (mult : ℕ)
    (hidnd : (tiles.map Tile.id).Nodup) (hposnd : (tiles.map tilePos).Nodup)
    (hidlt : ∀ u ∈ tiles, u.id < n)
    (hperm : sortedTiles.Perm tiles)
    (hsorted : List.Pairwise (fun a b : Tile => a.value ≤ b.value) sortedTiles) :
    ∀ (l : List Tile) (st : IterState), l <:+ sortedTiles →
      C5Inv tiles sortedTiles n l st →
      C5Inv tiles sortedTiles n [] (l.foldl (processTile tiles mult) st) := by
  intro l
  induction l with
  | nil => exact fun st _ inv => inv
  | cons t r ih =>
    intro st hsuf inv
    rw [List.foldl_cons]
    exact ih _ ((List.suffix_cons t r).trans hsuf)
      (c5_step mult hidnd hposnd hidlt hperm hsorted hsuf inv)

end C5Step

/-- A standalone copy of the id-freshness fold invariant (also established
for C7): the loop keeps `IdInv` along the traversal. -/
theorem foldl_processTile_idInv (tiles : List Tile) (n mult : ℕ)
    (hids : ∀ u ∈ tiles, u.id < n) :
    ∀ (l : List Tile) (st : IterState), (∀ u ∈ l, u ∈ tiles) →
      IdInv tiles n st.result st.currentId →
      IdInv tiles n (l.foldl (processTile tiles mult) st).result
        (l.foldl (processTile tiles mult) st).currentId := by
  intro l
  induction l with
  | nil => exact fun st _ inv => inv
  | cons t r ih =>
    intro st hmem inv
    rw [List.foldl_cons]
    exact ih _ (fun u hu => hmem u (List.mem_cons_of_mem _ hu))
      (processTile_idInv tiles mult n st t (hmem t (List.mem_cons_self _ _)) hids inv)

/-- Well-formedness is preserved by one pass: on a board with pairwise
distinct tile cells and pairwise distinct ids all below the incoming
counter, the pass permutes the multiset of occupied cells (merges re-emit
replacements on the very cells they clear), keeps the output ids pairwise
distinct, and keeps every output id below the returned counter, which never
falls below the incoming one. -/
theorem processSingleIteration_wf (tiles : List Tile) (n mult : ℕ)
    (hidnd : (tiles.map Tile.id).Nodup) (hposnd : (tiles.map tilePos).Nodup)
    (hidlt : ∀ u ∈ tiles, u.id < n) :
    posList (processSingleIteration tiles n mult).tiles = posList tiles ∧
    ((processSingleIteration tiles n mult).tiles.map Tile.id).Nodup ∧
    (∀ u ∈ (processSingleIteration tiles n mult).tiles,
      u.id < (processSingleIteration tiles n mult).nextTileId) ∧
    n ≤ (processSingleIteration tiles n mult).nextTileId := by
  have hsorted :=
    List.sorted_insertionSort (fun a b : Tile => a.value ≤ b.value) tiles
  have hperm := List.perm_insertionSort (fun a b : Tile => a.value ≤ b.value) tiles
  have hinv0 : C5Inv tiles (List.insertionSort (fun a b : Tile => a.value ≤ b.value) tiles)
      n (List.insertionSort (fun a b : Tile => a.value ≤ b.value) tiles)
      ⟨[], [], false, 0, n⟩ := by
    refine ⟨by simp, by simp, by simp, ?_, ?_, le_rfl⟩
    · intro u humem hupos huP
      exact Or.inl (hperm.mem_iff.mpr humem)
    · show posList [] + unprocessedPos _ [] = _
      rw [unprocessedPos_empty]
      show (0 : Multiset (ℤ × ℤ)) + _ = _
      rw [zero_add]
  have hfin := c5_fold mult hidnd hposnd hidlt hperm hsorted
    (List.insertionSort (fun a b : Tile => a.value ≤ b.value) tiles)
    ⟨[], [], false, 0, n⟩ (List.suffix_refl _) hinv0
  have hid0 : IdInv tiles n ([] : List Tile) n := ⟨le_rfl, by simp, by simp, by simp⟩
  have hidfin := foldl_processTile_idInv tiles n mult hidlt
    (List.insertionSort (fun a b : Tile => a.value ≤ b.value) tiles)
    ⟨[], [], false, 0, n⟩ (fun u hu => (List.mem_insertionSort _).mp hu) hid0
  obtain ⟨hi1, hi2, hi3, hi4⟩ := hidfin
  have hposfin := hfin.posEq
  rw [unprocessedPos_nil, add_zero] at hposfin
  have hpostiles : posList (processSingleIteration tiles n mult).tiles = posList tiles := by
    show posList (List.foldl (processTile tiles mult) ⟨[], [], false, 0, n⟩
      (List.insertionSort (fun a b : Tile => a.value ≤ b.value) tiles)).result = _
    rw [hposfin]
    unfold posList
    rw [Multiset.coe_eq_coe]
    exact hperm.map tilePos
  refine ⟨hpostiles, ?_, ?_, hi1⟩
  · -- split the output by old versus fresh ids
    have hsplit := List.filter_append_perm
      (fun u : Tile => decide (u.id < n))
      (processSingleIteration tiles n mult).tiles
    rw [← (hsplit.map Tile.id).nodup_iff, List.map_append]
    rw [List.nodup_append]
    refine ⟨hfin.oldNodup, ?_, ?_⟩
    · -- fresh part: strictly increasing fresh ids are pairwise distinct
      have hfconv : (processSingleIteration tiles n mult).tiles.filter
          (fun u : Tile => !decide (u.id < n)) =
          (processSingleIteration tiles n mult).tiles.filter
            (fun u : Tile => decide (n ≤ u.id)) :=
        List.filter_congr (fun u _ => by rw [Bool.eq_iff_iff]; simp [Nat.not_lt])
      rw [hfconv]
      exact hi3.imp (fun hab => Nat.ne_of_lt hab)
    · -- old ids are below `n`, fresh ids are not
      intro x hx hxmem
      rw [List.mem_map] at hx hxmem
      obtain ⟨u, hu, rfl⟩ := hx
      obtain ⟨w, hw, hweq⟩ := hxmem
      have hu' := List.of_mem_filter hu
      have hw' := List.of_mem_filter hw
      rw [decide_eq_true_eq] at hu'
      simp only [Bool.not_eq_true', decide_eq_false_iff_not, Nat.not_lt] at hw'
      omega
  · intro u hu
    have hnid : (processSingleIteration tiles n mult).nextTileId =
        (List.foldl (processTile tiles mult) ⟨[], [], false, 0, n⟩
          (List.insertionSort (fun a b : Tile => a.value ≤ b.value) tiles)).currentId :=
      rfl
    rw [hnid]
    rcases hi2 u hu with h | h
    · have := hidlt u h.1
      omega
    · exact h.2

end ClaimC5Invariant

section ClaimC5Unchanged

/-- The branch conditions under which the loop body retains a positive
visited tile with an empty processed set: the factorization check, the
equal-value scan and the divisor scan all come up empty. -/
def NoMergeTile (tiles : List Tile) (t : Tile) : Prop :=
  (if 2 ≤ (factorCandidates (activeAdjacent tiles [] t) t).length then
      checkMultiTileFactorization t.value
        ((factorCandidates (activeAdjacent tiles [] t) t).map (fun s => ⟨s.value, s.id⟩))
    else none) = none ∧
  (activeAdjacent tiles [] t).find?
    (fun a => checkEqualValueElimination t.value a.value) = none ∧
  (List.insertionSort (fun a b => b.value ≤ a.value)
      (activeAdjacent tiles [] t)).find?
    (fun a => decide (a.id ∉ ([] : List ℕ)) && decide (t.value ≠ a.value) &&
      isDivisor (t.value : ℤ) (a.value : ℤ)) = none

theorem processTile_noMerge (tiles : List Tile) (mult : ℕ) (st : IterState) (t : Tile)
    (hP : st.processed = []) (h : t.value = 0 ∨ NoMergeTile tiles t) :
    processTile tiles mult st t = { st with result := st.result ++ [t] } := by
  unfold processTile
  by_cases hv : t.value = 0
  · rw [if_pos hv]
  rw [if_neg hv]
  rcases h with h | h
  · exact absurd h hv
  rw [hP]
  rw [if_neg (List.not_mem_nil t.id)]
  dsimp only
  obtain ⟨h1, h2, h3⟩ := h
  rw [h1]
  dsimp only
  rw [h2]
  dsimp only
  rw [h3]

theorem applyFactorTile_changed (tiles : List Tile) (mult : ℕ) (st : IterState)
    (e : FactorAssign) : (applyFactorTile tiles mult st e).changed = st.changed := by
  unfold applyFactorTile
  cases tiles.find? (fun u => u.id == e.id) with
  | none => rfl
  | some a => rfl

theorem applyFactorTile_foldl_changed (tiles : List Tile) (mult : ℕ) :
    ∀ (asg : List FactorAssign) (st : IterState),
      (asg.foldl (applyFactorTile tiles mult) st).changed = st.changed := by
  intro asg
  induction asg with
  | nil => exact fun st => rfl
  | cons e rest ih =>
    intro st
    rw [List.foldl_cons, ih, applyFactorTile_changed]

theorem processTile_changed_mono (tiles : List Tile) (mult : ℕ) (st : IterState)
    (t : Tile) (h : st.changed = true) :
    (processTile tiles mult st t).changed = true := by
  unfold processTile
  by_cases hv : t.value = 0
  · rw [if_pos hv]
    exact h
  rw [if_neg hv]
  by_cases hp : t.id ∈ st.processed
  · rw [if_pos hp]
    exact h
  rw [if_neg hp]
  dsimp only
  split
  · unfold applyFactorization
    rw [applyFactorTile_foldl_changed]
  · split
    · rfl
    · split
      · rfl
      · exact h

theorem foldl_processTile_changed_mono (tiles : List Tile) (mult : ℕ) :
    ∀ (l : List Tile) (st : IterState), st.changed = true →
      (l.foldl (processTile tiles mult) st).changed = true := by
  intro l
  induction l with
  | nil => exact fun st h => h
  | cons t r ih =>
    intro st h
    rw [List.foldl_cons]
    exact ih _ (processTile_changed_mono tiles mult st t h)

/-- If the whole traversal reports no change, every visited tile took the
value-0 push or the empty-handed retain branch. -/
theorem foldl_changed_false (tiles : List Tile) (mult : ℕ) :
    ∀ (l : List Tile) (st : IterState), st.processed = [] →
      (l.foldl (processTile tiles mult) st).changed = false →
      ∀ t ∈ l, t.value = 0 ∨ NoMergeTile tiles t := by
  intro l
  induction l with
  | nil => exact fun st _ _ t ht => absurd ht (List.not_mem_nil t)
  | cons t r ih =>
    intro st hP hfold u hu
    rw [List.foldl_cons] at hfold
    have hhead : t.value = 0 ∨ NoMergeTile tiles t := by
      by_cases hv : t.value = 0
      · exact Or.inl hv
      right
      refine ⟨?_, ?_, ?_⟩
      · cases hq : (if 2 ≤ (factorCandidates (activeAdjacent tiles [] t) t).length then
            checkMultiTileFactorization t.value
              ((factorCandidates (activeAdjacent tiles [] t) t).map
                (fun s => ⟨s.value, s.id⟩))
          else none) with
        | none => rfl
        | some assignment =>
          exfalso
          have hstep : (processTile tiles mult st t).changed = true := by
            unfold processTile
            rw [if_neg hv, if_neg (by rw [hP]; exact List.not_mem_nil t.id), hP]
            dsimp only
            rw [hq]
            dsimp only
            unfold applyFactorization
            rw [applyFactorTile_foldl_changed]
          rw [foldl_processTile_changed_mono tiles mult r _ hstep] at hfold
          cases hfold
      · cases hq0 : (if 2 ≤ (factorCandidates (activeAdjacent tiles [] t) t).length then
            checkMultiTileFactorization t.value
              ((factorCandidates (activeAdjacent tiles [] t) t).map
                (fun s => ⟨s.value, s.id⟩))
          else none) with
        | some assignment =>
          exfalso
          have hstep : (processTile tiles mult st t).changed = true := by
            unfold processTile
            rw [if_neg hv, if_neg (by rw [hP]; exact List.not_mem_nil t.id), hP]
            dsimp only
            rw [hq0]
            dsimp only
            unfold applyFactorization
            rw [applyFactorTile_foldl_changed]
          rw [foldl_processTile_changed_mono tiles mult r _ hstep] at hfold
          cases hfold
        | none =>
          cases hq : (activeAdjacent tiles [] t).find?
              (fun a => checkEqualValueElimination t.value a.value) with
          | none => rfl
          | some a =>
            exfalso
            have hstep : (processTile tiles mult st t).changed = true := by
              unfold processTile
              rw [if_neg hv, if_neg (by rw [hP]; exact List.not_mem_nil t.id), hP]
              dsimp only
              rw [hq0]
              dsimp only
              rw [hq]
              rfl
            rw [foldl_processTile_changed_mono tiles mult r _ hstep] at hfold
            cases hfold
      · cases hq0 : (if 2 ≤ (factorCandidates (activeAdjacent tiles [] t) t).length then
            checkMultiTileFactorization t.value
              ((factorCandidates (activeAdjacent tiles [] t) t).map
                (fun s => ⟨s.value, s.id⟩))
          else none) with
        | some assignment =>
          exfalso
          have hstep : (processTile tiles mult st t).changed = true := by
            unfold processTile
            rw [if_neg hv, if_neg (by rw [hP]; exact List.not_mem_nil t.id), hP]
            dsimp only
            rw [hq0]
            dsimp only
            unfold applyFactorization
            rw [applyFactorTile_foldl_changed]
          rw [foldl_processTile_changed_mono tiles mult r _ hstep] at hfold
          cases hfold
        | none =>
          cases hq1 : (activeAdjacent tiles [] t).find?
              (fun a => checkEqualValueElimination t.value a.value) with
          | some a =>
            exfalso
            have hstep : (processTile tiles mult st t).changed = true := by
              unfold processTile
              rw [if_neg hv, if_neg (by rw [hP]; exact List.not_mem_nil t.id), hP]
              dsimp only
              rw [hq0]
              dsimp only
              rw [hq1]
              rfl
            rw [foldl_processTile_changed_mono tiles mult r _ hstep] at hfold
            cases hfold
          | none =>
            cases hq : (List.insertionSort (fun a b => b.value ≤ a.value)
                (activeAdjacent tiles [] t)).find?
                (fun a => decide (a.id ∉ ([] : List ℕ)) && decide (t.value ≠ a.value) &&
                  isDivisor (t.value : ℤ) (a.value : ℤ)) with
            | none => rfl
            | some a =>
              exfalso
              have hstep : (processTile tiles mult st t).changed = true := by
                unfold processTile
                rw [if_neg hv, if_neg (by rw [hP]; exact List.not_mem_nil t.id), hP]
                dsimp only
                rw [hq0]
                dsimp only
                rw [hq1]
                dsimp only
                rw [hq]
                rfl
              rw [foldl_processTile_changed_mono tiles mult r _ hstep] at hfold
              cases hfold
    rcases List.mem_cons.mp hu with rfl | hur
    · exact hhead
    · have hpush := processTile_noMerge tiles mult st t hP hhead
      rw [hpush] at hfold
      exact ih { st with result := st.result ++ [t] } hP hfold _ hur

/-- If every tile took a no-merge branch, the traversal pushes the sorted
tiles through unchanged. -/
theorem foldl_noMerge (tiles : List Tile) (mult : ℕ) :
    ∀ (l : List Tile) (st : IterState),
      (∀ t ∈ l, t.value = 0 ∨ NoMergeTile tiles t) → st.processed = [] →
      l.foldl (processTile tiles mult) st = { st with result := st.result ++ l } := by
  intro l
  induction l with
  | nil =>
    intro st _ _
    show st = _
    rw [List.append_nil]
  | cons t r ih =>
    intro st h hP
    rw [List.foldl_cons, processTile_noMerge tiles mult st t hP (h t (List.mem_cons_self _ _))]
    rw [ih { st with result := st.result ++ [t] }
      (fun u hu => h u (List.mem_cons_of_mem _ hu)) hP]
    have hl : (st.result ++ [t]) ++ r = st.result ++ t :: r := by simp
    rw [hl]

/-- On a board whose cells are pairwise distinct, the per-cell lookup on the
zero-filtered board finds exactly the positive finds of the full board. -/
theorem find?_filter_zero {B : List Tile} (hposnd : (B.map tilePos).Nodup)
    (rw0 cl : ℤ) :
    (B.filter (fun t => decide (t.value ≠ 0))).find?
      (fun o => o.row == rw0 && o.col == cl) =
    (match B.find? (fun o => o.row == rw0 && o.col == cl) with
      | none => none
      | some u => if u.value = 0 then none else some u) := by
  cases hf : B.find? (fun o => o.row == rw0 && o.col == cl) with
  | none =>
    rw [List.find?_eq_none]
    intro x hx
    exact List.find?_eq_none.mp hf x (List.mem_of_mem_filter hx)
  | some u =>
    dsimp only
    have humem := List.mem_of_find?_eq_some hf
    have hupred := List.find?_some hf
    have huniq : ∀ x ∈ B, (fun o : Tile => o.row == rw0 && o.col == cl) x = true →
        x = u := by
      intro x hx hpx
      simp only [Bool.and_eq_true, beq_iff_eq] at hpx hupred
      apply tile_eq_of_pos_eq hposnd hx humem
      unfold tilePos
      rw [hpx.1, hpx.2, hupred.1, hupred.2]
    by_cases hz : u.value = 0
    · rw [if_pos hz, List.find?_eq_none]
      intro x hx hpx
      have hxB := List.mem_of_mem_filter hx
      have hxz := List.of_mem_filter hx
      rw [decide_eq_true_eq] at hxz
      exact hxz (huniq x hxB hpx ▸ hz)
    · rw [if_neg hz]
      apply find?_eq_some_of_unique
      · rw [List.mem_filter]
        exact ⟨humem, by simpa using hz⟩
      · exact hupred
      · exact fun x hx hpx => huniq x (List.mem_of_mem_filter hx) hpx

/-- Filtering the zero tiles away does not change the active adjacent list:
a cell whose unique occupant is a zero tile contributes nothing either way.
-/
theorem activeAdjacent_filter_zero {B : List Tile} (hposnd : (B.map tilePos).Nodup)
    (P : List ℕ) (t : Tile) :
    activeAdjacent (B.filter (fun u => decide (u.value ≠ 0))) P t =
      activeAdjacent B P t := by
  unfold activeAdjacent getAdjacentTiles
  have key : ∀ (ds : List (ℤ × ℤ)),
      (ds.filterMap (fun d =>
        (B.filter (fun u => decide (u.value ≠ 0))).find?
          (fun other => other.row == t.row + d.1 && other.col == t.col + d.2))).filter
        (fun u => decide (u.id ∉ P) && decide (0 < u.value)) =
      (ds.filterMap (fun d =>
        B.find? (fun other => other.row == t.row + d.1 && other.col == t.col + d.2))).filter
        (fun u => decide (u.id ∉ P) && decide (0 < u.value)) := by
    intro ds
    induction ds with
    | nil => rfl
    | cons d rest ih =>
      rw [List.filterMap_cons, List.filterMap_cons]
      rw [find?_filter_zero hposnd]
      cases hf : B.find? (fun o => o.row == t.row + d.1 && o.col == t.col + d.2) with
      | none =>
        dsimp only
        exact ih
      | some u =>
        dsimp only
        by_cases hz : u.value = 0
        · rw [if_pos hz]
          dsimp only
          rw [ih, List.filter_cons]
          have hfalse : (decide (u.id ∉ P) && decide (0 < u.value)) = false := by
            rw [hz]
            simp
          rw [hfalse]
          rw [if_neg (by simp)]
        · rw [if_neg hz]
          dsimp only
          rw [List.filter_cons, List.filter_cons, ih]
  exact key directions

/-- A pass that reports no change certifies every tile of its input board
as zero or merge-free. -/
theorem unchanged_characterization (B : List Tile) (n mult : ℕ)
    (h : (processSingleIteration B n mult).changed = false) :
    ∀ t ∈ B, t.value = 0 ∨ NoMergeTile B t := by
  intro t ht
  have hfold : ((List.insertionSort (fun a b : Tile => a.value ≤ b.value) B).foldl
      (processTile B mult) ⟨[], [], false, 0, n⟩).changed = false := h
  exact foldl_changed_false B mult _ ⟨[], [], false, 0, n⟩ rfl hfold t
    ((List.mem_insertionSort _).mpr ht)

/-- A board all of whose tiles are zero or merge-free passes through the
reducer unchanged, with no score. -/
theorem unchanged_of_noMerge (B : List Tile) (n mult : ℕ)
    (h : ∀ t ∈ B, t.value = 0 ∨ NoMergeTile B t) :
    (processSingleIteration B n mult).changed = false ∧
      (processSingleIteration B n mult).score = 0 := by
  have hfold := foldl_noMerge B mult
    (List.insertionSort (fun a b : Tile => a.value ≤ b.value) B)
    ⟨[], [], false, 0, n⟩
    (fun t ht => h t ((List.mem_insertionSort _).mp ht)) rfl
  constructor
  · show ((List.insertionSort (fun a b : Tile => a.value ≤ b.value) B).foldl
      (processTile B mult) ⟨[], [], false, 0, n⟩).changed = false
    rw [hfold]
  · show ((List.insertionSort (fun a b : Tile => a.value ≤ b.value) B).foldl
      (processTile B mult) ⟨[], [], false, 0, n⟩).score = 0
    rw [hfold]

/-- After an unchanged pass on a duplicate-free board, dropping the zero
tiles still leaves a board on which the reducer reports no change and no
score: every survivor keeps its merge-free certificate because the active
adjacency is untouched by the zero filter. -/
theorem unchanged_rerun (B : List Tile) (hposnd : (B.map tilePos).Nodup)
    (n mult : ℕ) (h : (processSingleIteration B n mult).changed = false)
    (n2 mult2 : ℕ) :
    (processSingleIteration (B.filter (fun u => decide (u.value ≠ 0))) n2 mult2).changed
      = false ∧
    (processSingleIteration (B.filter (fun u => decide (u.value ≠ 0))) n2 mult2).score
      = 0 := by
  apply unchanged_of_noMerge
  intro t ht
  have htB : t ∈ B := List.mem_of_mem_filter ht
  rcases unchanged_characterization B n mult h t htB with h0 | hnm
  · exact Or.inl h0
  right
  unfold NoMergeTile at hnm ⊢
  rw [activeAdjacent_filter_zero hposnd]
  exact hnm

end ClaimC5Unchanged

section ClaimC5

/-- The final board returned by the chain loop never contains a zero-value
tile: the loop exits through the filter. -/
theorem processChainLoop_no_zero :
    ∀ (N : ℕ) (B : List Tile) (m id sc cc : ℕ) (steps : List (List Tile)),
      tileMeasure B ≤ N →
      ∀ t ∈ (processChainLoop B m id sc cc steps).tiles, t.value ≠ 0 := by
  intro N
  induction N with
  | zero =>
    intro B m id sc cc steps hn
    rw [processChainLoop]
    split
    case _ h =>
      exfalso
      have := processSingleIteration_measure B id (m * 2 ^ cc) h
      omega
    case _ h =>
      dsimp only
      intro t ht
      have := List.of_mem_filter ht
      simpa using this
  | succ k ih =>
    intro B m id sc cc steps hn
    rw [processChainLoop]
    split
    case _ h =>
      have hdec := processSingleIteration_measure B id (m * 2 ^ cc) h
      exact ih _ m _ _ _ _ (by omega)
    case _ h =>
      dsimp only
      intro t ht
      have := List.of_mem_filter ht
      simpa using this

/-- On a well-formed board (pairwise distinct cells, pairwise distinct ids
below the id counter) the chain loop ends in a genuine fixed point: one
more pass over the returned board reports no change and no score, for any
rerun counter and multiplier. -/
theorem processChainLoop_fixed :
    ∀ (N : ℕ) (B : List Tile) (m id sc cc : ℕ) (steps : List (List Tile)),
      tileMeasure B ≤ N →
      (B.map Tile.id).Nodup → (B.map tilePos).Nodup → (∀ u ∈ B, u.id < id) →
      ∀ (n2 m2 : ℕ),
        (processSingleIteration (processChainLoop B m id sc cc steps).tiles
          n2 m2).changed = false ∧
        (processSingleIteration (processChainLoop B m id sc cc steps).tiles
          n2 m2).score = 0 := by
  intro N
  induction N with
  | zero =>
    intro B m id sc cc steps hn hidnd hposnd hidlt n2 m2
    rw [processChainLoop]
    split
    case _ h =>
      exfalso
      have := processSingleIteration_measure B id (m * 2 ^ cc) h
      omega
    case _ h =>
      have hch : (processSingleIteration B id (m * 2 ^ cc)).changed = false := by
        cases hcb : (processSingleIteration B id (m * 2 ^ cc)).changed
        · rfl
        · exact absurd hcb h
      exact unchanged_rerun B hposnd id (m * 2 ^ cc) hch n2 m2
  | succ k ih =>
    intro B m id sc cc steps hn hidnd hposnd hidlt n2 m2
    rw [processChainLoop]
    split
    case _ h =>
      have hdec := processSingleIteration_measure B id (m * 2 ^ cc) h
      obtain ⟨hpos, hidnodup, hidbound, hge⟩ :=
        processSingleIteration_wf B id (m * 2 ^ cc) hidnd hposnd hidlt
      have hposnodup : ((processSingleIteration B id (m * 2 ^ cc)).tiles.map
          tilePos).Nodup := by
        have hperm' : ((processSingleIteration B id (m * 2 ^ cc)).tiles.map
            tilePos).Perm (B.map tilePos) := Multiset.coe_eq_coe.mp hpos
        exact hperm'.nodup_iff.mpr hposnd
      exact ih _ m _ _ _ _ (by omega) hidnodup hposnodup hidbound n2 m2
    case _ h =>
      have hch : (processSingleIteration B id (m * 2 ^ cc)).changed = false := by
        cases hcb : (processSingleIteration B id (m * 2 ^ cc)).changed
        · rfl
        · exact absurd hcb h
      exact unchanged_rerun B hposnd id (m * 2 ^ cc) hch n2 m2

/-- C5, counterexample to the unrestricted claim: on the board with a
zero-value tile and a 6-tile stacked on the cell `(0, 1)` next to a 2-tile
at `(0, 0)`, the zero tile shadows the 6 in the adjacency scan, the chain
loop reports no change and returns `[6, 2]` after filtering — but one more
pass on that returned board merges the 2 into the 6, reporting
`changed = true`. -/
theorem C5_counterexample :
    ¬ ((processSingleIteration
        (processChainReactions
          [⟨7, 0, 0, 1, none⟩, ⟨8, 6, 0, 1, none⟩, ⟨9, 2, 0, 0, none⟩] 1 100).tiles
        100 1).changed = false) := by
  have h1 : ¬ ((processSingleIteration
      [⟨7, 0, 0, 1, none⟩, ⟨8, 6, 0, 1, none⟩, ⟨9, 2, 0, 0, none⟩]
      100 (1 * 2 ^ 0)).changed = true) := by decide
  have hcc : processChainReactions
      [⟨7, 0, 0, 1, none⟩, ⟨8, 6, 0, 1, none⟩, ⟨9, 2, 0, 0, none⟩] 1 100 =
      ⟨[⟨8, 6, 0, 1, none⟩, ⟨9, 2, 0, 0, none⟩], 0, 0, [], 100⟩ := by
    rw [processChainReactions, processChainLoop, dif_neg h1]
    rfl
  rw [hcc]
  decide

/-- C5, amended: the returned board always excludes all zero-value tiles;
and on any input board whose tiles occupy pairwise distinct cells and carry
pairwise distinct ids below the start id, chain resolution is a fixed
point — running the single-pass reducer once on the returned board (with
any counter and multiplier) reports `changed = false` with a score delta of
0.  (Without the distinct-cells hypothesis a zero-value tile can shadow a
live tile in the adjacency scan, as the counterexample shows.) -/
theorem C5_fixed_point :
    (∀ (tiles : List Tile) (m id : ℕ),
      ∀ t ∈ (processChainReactions tiles m id).tiles, t.value ≠ 0) ∧
    (∀ (tiles : List Tile) (m id : ℕ),
      (tiles.map Tile.id).Nodup → (tiles.map tilePos).Nodup →
      (∀ u ∈ tiles, u.id < id) →
      ∀ (n2 m2 : ℕ),
        (processSingleIteration (processChainReactions tiles m id).tiles
          n2 m2).changed = false ∧
        (processSingleIteration (processChainReactions tiles m id).tiles
          n2 m2).score = 0) := by
  constructor
  · intro tiles m id
    have := processChainLoop_no_zero (tileMeasure tiles) tiles m id 0 0 [] le_rfl
    unfold processChainReactions
    exact this
  · intro tiles m id hidnd hposnd hidlt n2 m2
    have := processChainLoop_fixed (tileMeasure tiles) tiles m id 0 0 [] le_rfl
      hidnd hposnd hidlt n2 m2
    unfold processChainReactions
    exact this

/-- C5, witness: the board `[3 | 147]` (distinct cells, ids 1 and 2 below
the start id 10) chains down and the returned board is zero-free and a
fixed point of the reducer. -/
theorem C5_witness :
    (∀ t ∈ (processChainReactions [⟨1, 3, 0, 0, none⟩, ⟨2, 147, 0, 1, none⟩] 1 10).tiles,
      t.value ≠ 0) ∧
    (processSingleIteration
      (processChainReactions [⟨1, 3, 0, 0, none⟩, ⟨2, 147, 0, 1, none⟩] 1 10).tiles
      50 1).changed = false ∧
    (processSingleIteration
      (processChainReactions [⟨1, 3, 0, 0, none⟩, ⟨2, 147, 0, 1, none⟩] 1 10).tiles
      50 1).score = 0 :=
  ⟨fun t ht => C5_fixed_point.1 [⟨1, 3, 0, 0, none⟩, ⟨2, 147, 0, 1, none⟩] 1 10 t ht,
   (C5_fixed_point.2 [⟨1, 3, 0, 0, none⟩, ⟨2, 147, 0, 1, none⟩] 1 10
     (by decide) (by decide) (by decide) 50 1).1,
   (C5_fixed_point.2 [⟨1, 3, 0, 0, none⟩, ⟨2, 147, 0, 1, none⟩] 1 10
     (by decide) (by decide) (by decide) 50 1).2⟩

end ClaimC5

end PFG
